import Mathlib

/-!
Verification of the scalar autodiff engine (`value.py`) and the neural-network
composition layer (`nn.py`) of the `neural_network` repository.

Embedding choices:
* A computational graph is an arena (`Graph`): a list of nodes, a node's identity
  being its index.  The source only ever creates a node from already existing
  nodes, so every operand index is strictly smaller than the node's own index;
  this well-foundedness (`WFG`) is the form acyclicity takes here.
* Python floats are modelled by exact rationals `ℚ`.  `math.exp` is modelled by
  an explicit function parameter `E : ℚ → ℚ`, since the exponential is not
  rational; the backward pass never calls `math.exp` (the closures only read
  stored `data` fields), so gradients are independent of `E`.
* Numeric exponents of `__pow__` are modelled as integers `ℤ` (the only
  exponents the repository uses, e.g. `-1` in division, are integers; `ℚ` has
  no general real power).
* A `Value.__init__` call stores `_prev = set(_children)`; the dedup list of
  operand indices plays the role of that set.  The `_backward` closures are
  modelled by `slots`: the list of (operand index, local derivative) pairs the
  closure accumulates with `+=`, dispatching on the operation tag.
-/

/-- The operation that produced a node, together with the operand indices it
captured; mirrors the `_op` tag and the closure captures of `value.py`.
`pow` also captures the scalar exponent, as the Python closure does. -/
inductive Op where
  | leaf : Op
  | add : Nat → Nat → Op
  | mul : Nat → Nat → Op
  | pow : Nat → ℤ → Op
  | exp : Nat → Op
  | tanh : Nat → Op
  | relu : Nat → Op
deriving DecidableEq, Repr

/-- One node of the computational graph: `Value.data`, `Value.grad`, and the
operation record (`_op` plus the operands captured by `_backward`). -/
structure Value where
  data : ℚ
  grad : ℚ
  op : Op
deriving DecidableEq, Repr

instance : Inhabited Value := ⟨⟨0, 0, Op.leaf⟩⟩

/-- The arena of all nodes created so far; a node's identity is its index. -/
structure Graph where
  nodes : List Value
deriving DecidableEq, Repr

def Graph.node (g : Graph) (i : Nat) : Value := g.nodes.getD i default

def Graph.data (g : Graph) (i : Nat) : ℚ := (g.node i).data

def Graph.grad (g : Graph) (i : Nat) : ℚ := (g.node i).grad

def Graph.opAt (g : Graph) (i : Nat) : Op := (g.node i).op

/-- The operand indices recorded in an operation tag (the `_children` tuple). -/
def Op.refs : Op → List Nat
  | Op.leaf => []
  | Op.add a b => [a, b]
  | Op.mul a b => [a, b]
  | Op.pow a _ => [a]
  | Op.exp a => [a]
  | Op.tanh a => [a]
  | Op.relu a => [a]

/-- Operand indices of node `i` (the `_children` tuple of its constructor). -/
def opRefs (g : Graph) (i : Nat) : List Nat := (g.opAt i).refs

/-- `self._prev = set(_children)`: the deduplicated operand set of node `i`. -/
def prev (g : Graph) (i : Nat) : List Nat := (opRefs g i).dedup

/-- Well-formedness maintained by graph construction: every operand of a node
was created before the node, i.e. has a strictly smaller index.  This is the
acyclicity of the operand relation in this embedding. -/
def WFG (g : Graph) : Prop := ∀ i j, j ∈ opRefs g i → j < i

/-- The `_backward` closure of node `i`, as data: the list of
(operand, local derivative) pairs into which the closure accumulates
`local * out.grad`, in the order the `+=` statements run in `value.py`:
* `__add__`:  `self.grad += 1.0 * out.grad; other.grad += 1.0 * out.grad`
* `__mul__`:  `self.grad += other.data * out.grad; other.grad += self.data * out.grad`
* `__pow__`:  `self.grad += (other * self.data**(other-1)) * out.grad`
* `exp`:      `self.grad += out.data * out.grad`
* `tanh`:     `self.grad += (1 - t**2) * out.grad` with `t = out.data`
* `relu`:     `self.grad += (out > 0) * out.grad`
A leaf's closure is `lambda: None`. -/
def slots (g : Graph) (i : Nat) : List (Nat × ℚ) :=
  match g.opAt i with
  | Op.leaf => []
  | Op.add a b => [(a, 1), (b, 1)]
  | Op.mul a b => [(a, g.data b), (b, g.data a)]
  | Op.pow a k => [(a, (k : ℚ) * g.data a ^ (k - 1))]
  | Op.exp a => [(a, g.data i)]
  | Op.tanh a => [(a, 1 - g.data i ^ 2)]
  | Op.relu a => [(a, if 0 < g.data i then 1 else 0)]

/-- Total local derivative of node `i` with respect to node `n`: the sum of the
local derivatives over all operand slots of `i` that refer to `n` (two, for
example, when `n` is used as both operands of an addition). -/
def slotWeight (g : Graph) (i n : Nat) : ℚ :=
  ((slots g i).map (fun jd => if jd.1 = n then jd.2 else 0)).sum

/-- `node.grad += q` (no-op on an out-of-range index, which never occurs for
graphs built by the constructors). -/
def addGrad (g : Graph) (j : Nat) (q : ℚ) : Graph :=
  ⟨g.nodes.set j { g.nodes.getD j default with grad := (g.nodes.getD j default).grad + q }⟩

/-- `node.grad = q`. -/
def setGrad (g : Graph) (j : Nat) (q : ℚ) : Graph :=
  ⟨g.nodes.set j { g.nodes.getD j default with grad := q }⟩

/-- Running the `_backward` closure of node `i`: each slot accumulates
`local * out.grad` into its operand's gradient, reading `out.grad` at the
moment the `+=` executes, exactly as the Python closures do. -/
def propagate (g : Graph) (i : Nat) : Graph :=
  (slots g i).foldl (fun h jd => addGrad h jd.1 (jd.2 * h.grad i)) g

/-- The recursive `build_topo` of `Value.backward`, with an explicit fuel that
makes the recursion structural.  `visited`/`topo` are the two accumulators of
the source; since operand indices strictly decrease, fuel `i + 1` is enough to
run `build_topo(i)` to completion, so the fuel never alters the result on
well-formed graphs. -/
def dfsAux (g : Graph) : Nat → Nat → List Nat × List Nat → List Nat × List Nat
  | 0, _, st => st
  | fuel + 1, i, st =>
    if i ∈ st.1 then st
    else
      let st' := (prev g i).foldl (fun s c => dfsAux g fuel c s) (i :: st.1, st.2)
      (st'.1, st'.2 ++ [i])

/-- The topological list `topo` built by `Value.backward` starting from `root`. -/
def buildTopo (g : Graph) (root : Nat) : List Nat :=
  (dfsAux g (root + 1) root ([], [])).2

/-- `Value.backward`: build `topo`, seed `self.grad = 1.0`, then run each
node's `_backward` in reversed topological order. -/
def backward (g : Graph) (root : Nat) : Graph :=
  (buildTopo g root).reverse.foldl (fun h i => propagate h i) (setGrad g root 1)

/-- An argument of an arithmetic operation: either an existing graph node or a
raw Python number (`isinstance(other, Value)` dispatch). -/
inductive PyArg where
  | node : Nat → PyArg
  | num : ℚ → PyArg
deriving DecidableEq, Repr

/-- The numeric value an argument denotes (raw numbers are their own value). -/
def argData (g : Graph) : PyArg → ℚ
  | PyArg.node j => g.data j
  | PyArg.num q => q

/-- Appends a freshly constructed node and returns its index. -/
def Graph.push (g : Graph) (nd : Value) : Nat × Graph :=
  (g.nodes.length, ⟨g.nodes ++ [nd]⟩)

/-- `Value(x)`: a leaf node with the given data, gradient `0.0`, no operands. -/
def mkValue (g : Graph) (x : ℚ) : Nat × Graph :=
  g.push ⟨x, 0, Op.leaf⟩

/-- `Value.__add__` on two nodes: `out = Value(self.data+other.data, (self, other), '+')`. -/
def vadd (g : Graph) (i j : Nat) : Nat × Graph :=
  g.push ⟨g.data i + g.data j, 0, Op.add i j⟩

/-- `Value.__mul__` on two nodes. -/
def vmul (g : Graph) (i j : Nat) : Nat × Graph :=
  g.push ⟨g.data i * g.data j, 0, Op.mul i j⟩

/-- `Value.__add__` with operand coercion: a raw number is first wrapped by
`Value(other)`. -/
def vaddArg (g : Graph) (i : Nat) : PyArg → Nat × Graph
  | PyArg.node j => vadd g i j
  | PyArg.num q =>
    let (j, g1) := mkValue g q
    vadd g1 i j

/-- `Value.__mul__` with operand coercion. -/
def vmulArg (g : Graph) (i : Nat) : PyArg → Nat × Graph
  | PyArg.node j => vmul g i j
  | PyArg.num q =>
    let (j, g1) := mkValue g q
    vmul g1 i j

/-- `Value.__pow__` after the exponent-type check has passed:
`out = Value(self.data**other, (self,), ...)`. -/
def vpowS (g : Graph) (i : Nat) (k : ℤ) : Nat × Graph :=
  g.push ⟨g.data i ^ k, 0, Op.pow i k⟩

/-- The error taxonomy of the specification; `invalidExponentType` is raised by
the `assert isinstance(other, (int, float))` guard of `__pow__`. -/
inductive AutogradError where
  | invalidExponentType : AutogradError
deriving DecidableEq, Repr

/-- The exponent argument of `__pow__`: a plain numeric scalar or another node. -/
inductive PowArg where
  | scalar : ℤ → PowArg
  | node : Nat → PowArg
deriving DecidableEq, Repr

/-- `Value.__pow__`: asserts the exponent is a plain number before any node is
created; with a numeric exponent it builds the power node. -/
def vpow (g : Graph) (i : Nat) : PowArg → Except AutogradError (Nat × Graph)
  | PowArg.scalar k => Except.ok (vpowS g i k)
  | PowArg.node _ => Except.error AutogradError.invalidExponentType

/-- `Value.exp`: `out = Value(math.exp(x), (self,), 'exp')`; `E` models `math.exp`. -/
def vexp (E : ℚ → ℚ) (g : Graph) (i : Nat) : Nat × Graph :=
  g.push ⟨E (g.data i), 0, Op.exp i⟩

/-- The forward value of `tanh`, computed as in the source:
`t = (math.exp(2*x) - 1)/(math.exp(2*x) + 1)`. -/
def tanhVal (E : ℚ → ℚ) (x : ℚ) : ℚ :=
  (E (2 * x) - 1) / (E (2 * x) + 1)

/-- `Value.tanh`. -/
def vtanh (E : ℚ → ℚ) (g : Graph) (i : Nat) : Nat × Graph :=
  g.push ⟨tanhVal E (g.data i), 0, Op.tanh i⟩

/-- `Value.relu`: `out = Value(0 if self.data < 0 else self.data, ...)`. -/
def vrelu (g : Graph) (i : Nat) : Nat × Graph :=
  g.push ⟨if g.data i < 0 then 0 else g.data i, 0, Op.relu i⟩

/-- `Value.__neg__`: `return self * -1` (coerces `-1` into a leaf node). -/
def vneg (g : Graph) (i : Nat) : Nat × Graph :=
  vmulArg g i (PyArg.num (-1))

/-- `Value.__sub__`: `return self + (-other)`; negating a raw number is plain
numeric negation, negating a node goes through `__neg__`. -/
def vsub (g : Graph) (i : Nat) : PyArg → Nat × Graph
  | PyArg.num q => vaddArg g i (PyArg.num (-q))
  | PyArg.node j =>
    let (nj, g1) := vneg g j
    vadd g1 i nj

/-- `Value.__rsub__(self, other)`, reached for `other - self` with `other` a raw
number; the source body is `return self + (-other)`. -/
def vrsub (g : Graph) (i : Nat) (r : ℚ) : Nat × Graph :=
  vaddArg g i (PyArg.num (-r))

/-- `Value.__truediv__`: `return self * (other**-1)`; a raw divisor is inverted
by plain numeric power, a node divisor through `__pow__`. -/
def vdiv (g : Graph) (i : Nat) : PyArg → Nat × Graph
  | PyArg.num q => vmulArg g i (PyArg.num q⁻¹)
  | PyArg.node j =>
    let (p, g1) := vpowS g j (-1)
    vmul g1 i p

/-- `Value.__rtruediv__(self, other)`, reached for `other / self` with `other` a
raw number; the source body is `return self * (other**-1)`. -/
def vrdiv (g : Graph) (i : Nat) (r : ℚ) : Nat × Graph :=
  vmulArg g i (PyArg.num r⁻¹)

/-- Reachability along operand edges, from the root downward (the sub-DAG that
`build_topo` traverses). -/
inductive Reaches (g : Graph) : Nat → Nat → Prop
  | refl (i : Nat) : Reaches g i i
  | step {i j k : Nat} : Reaches g i j → k ∈ opRefs g j → Reaches g i k

/-- Multiplicities of operand-paths, with fuel (indices strictly decrease along
a path on a well-formed graph, so fuel `v + 1` covers every path from `v`):
the list holding, for each operand-path from `v` to `n`, the product of the
local derivatives along it. -/
def pathProds (g : Graph) : Nat → Nat → Nat → List ℚ
  | 0, v, n => if v = n then [1] else []
  | fuel + 1, v, n =>
    if v = n then [1]
    else (slots g v).flatMap fun jd => (pathProds g fuel jd.1 n).map fun q => jd.2 * q

/-- `∂root/∂n` as the specification states it: the sum, over all operand-paths
from `root` to `n`, of the product of the local derivatives along the path. -/
def derivSum (g : Graph) (root n : Nat) : ℚ :=
  (pathProds g (root + 1) root n).sum

/-- Path sums restricted to paths all of whose nodes other than the endpoint lie
in `P` (the set of nodes whose `_backward` has already run); the central
invariant of the backward pass. -/
def psum (g : Graph) (P : List Nat) : Nat → Nat → Nat → ℚ
  | 0, v, n => if v = n then 1 else 0
  | fuel + 1, v, n =>
    if v = n then 1
    else if v ∈ P then
      ((slots g v).map fun jd => jd.2 * psum g P fuel jd.1 n).sum
    else 0

/-!  ## The network composition layer (`nn.py`) -/

/-- A `Neuron`: the indices of its weight nodes (in order) and of its bias node. -/
structure NeuronM where
  w : List Nat
  b : Nat
deriving DecidableEq, Repr

/-- The weight list `[Value(random.uniform(-1,1)) for _ in range(nin)]`; `rnd`
supplies the successive random draws (`k` is the index of the next draw), since
the initialization policy is an external collaborator. -/
def mkWeights (rnd : Nat → ℚ) : Graph → Nat → Nat → List Nat × Graph × Nat
  | g, k, 0 => ([], g, k)
  | g, k, n + 1 =>
    let p := mkValue g (rnd k)
    let r := mkWeights rnd p.2 (k + 1) n
    (p.1 :: r.1, r.2.1, r.2.2)

/-- `Neuron.__init__(nin)`: `nin` weight leaves followed by the bias leaf. -/
def mkNeuron (rnd : Nat → ℚ) (g : Graph) (k nin : Nat) : NeuronM × Graph × Nat :=
  let r := mkWeights rnd g k nin
  let b := mkValue r.2.1 (rnd r.2.2)
  (⟨r.1, b.1⟩, b.2, r.2.2 + 1)

/-- `Layer.__init__(nin, nout)`: `nout` Neurons of input width `nin`, in order. -/
def mkLayer (rnd : Nat → ℚ) : Graph → Nat → Nat → Nat → List NeuronM × Graph × Nat
  | g, k, _, 0 => ([], g, k)
  | g, k, nin, nout + 1 =>
    let p := mkNeuron rnd g k nin
    let r := mkLayer rnd p.2.1 p.2.2 nin nout
    (p.1 :: r.1, r.2.1, r.2.2)

/-- `MLP.__init__(nin, nouts)`: layers chained through the width list
`sz = [nin] + nouts`. -/
def mkMLP (rnd : Nat → ℚ) : Graph → Nat → Nat → List Nat → List (List NeuronM) × Graph × Nat
  | g, k, _, [] => ([], g, k)
  | g, k, nin, m :: rest =>
    let p := mkLayer rnd g k nin m
    let r := mkMLP rnd p.2.1 p.2.2 m rest
    (p.1 :: r.1, r.2.1, r.2.2)

/-- The accumulation `sum((wi*xi for wi, xi in zip(self.w, x)), self.b)`:
a left fold starting from the bias, one product node and one sum node per
zipped pair (a raw input is coerced into a leaf when multiplied). -/
def sumWX : Graph → List (Nat × PyArg) → Nat → Nat × Graph
  | g, [], acc => (acc, g)
  | g, wx :: rest, acc =>
    let p := vmulArg g wx.1 wx.2
    let s := vadd p.2 acc p.1
    sumWX s.2 rest s.1

/-- `Neuron.__call__(x)`: `act = sum((wi*xi for wi, xi in zip(self.w, x)), self.b)`
then `act.tanh()`.  `zip` silently truncates to the shorter of the two lists;
there is no length check in the source. -/
def neuronCall (E : ℚ → ℚ) (g : Graph) (nr : NeuronM) (x : List PyArg) : Nat × Graph :=
  let act := sumWX g (nr.w.zip x) nr.b
  vtanh E act.2 act.1

/-- `outs = [n(x) for n in self.neurons]`. -/
def neuronOuts (E : ℚ → ℚ) : Graph → List NeuronM → List PyArg → List Nat × Graph
  | g, [], _ => ([], g)
  | g, nr :: rest, x =>
    let o := neuronCall E g nr x
    let os := neuronOuts E o.2 rest x
    (o.1 :: os.1, os.2)

/-- A layer's return value: `outs[0] if len(outs) == 1 else outs`. -/
inductive LayerOut where
  | single : Nat → LayerOut
  | seq : List Nat → LayerOut
deriving DecidableEq, Repr

/-- `Layer.__call__(x)`. -/
def layerCall (E : ℚ → ℚ) (g : Graph) (L : List NeuronM) (x : List PyArg) :
    LayerOut × Graph :=
  let outs := neuronOuts E g L x
  (match outs.1 with
   | [o] => LayerOut.single o
   | os => LayerOut.seq os, outs.2)

/-- The dynamically-typed loop variable of `MLP.__call__`: a sequence of inputs,
or the bare node a single-neuron layer returned. -/
inductive LVal where
  | args : List PyArg → LVal
  | single : Nat → LVal
deriving DecidableEq, Repr

/-- The loop `for layer in self.layers: x = layer(x)`.  Feeding a bare node
(the output of a single-neuron layer) into a further layer crashes in the
source (`zip` over a non-iterable `Value` raises `TypeError`); that outcome is
`none`. -/
def mlpGo (E : ℚ → ℚ) : List (List NeuronM) → LVal → Graph → Option (LVal × Graph)
  | [], v, g => some (v, g)
  | _ :: _, LVal.single _, _ => none
  | L :: rest, LVal.args x, g =>
    let out := layerCall E g L x
    mlpGo E rest
      (match out.1 with
       | LayerOut.single o => LVal.single o
       | LayerOut.seq os => LVal.args (os.map PyArg.node)) out.2

/-- `MLP.__call__(x)`. -/
def mlpCall (E : ℚ → ℚ) (g : Graph) (layers : List (List NeuronM)) (x : List PyArg) :
    Option (LVal × Graph) :=
  mlpGo E layers (LVal.args x) g

/-- `Neuron.parameters()`: `return self.w + [self.b]`. -/
def neuronParams (nr : NeuronM) : List Nat := nr.w ++ [nr.b]

/-- `Layer.parameters()`: `[p for neuron in self.neurons for p in neuron.parameters()]`. -/
def layerParams (L : List NeuronM) : List Nat := L.flatMap neuronParams

/-- `MLP.parameters()`: `[p for layer in self.layers for p in layer.parameters()]`. -/
def mlpParams (layers : List (List NeuronM)) : List Nat := layers.flatMap layerParams

/-- The parameter count the widths dictate: `(sz[i]+1) * sz[i+1]` summed along
`sz = [nin] + nouts`. -/
def mlpParamCount : Nat → List Nat → Nat
  | _, [] => 0
  | nin, m :: rest => m * (nin + 1) + mlpParamCount m rest

/-- `Module.zero_grad`: `for p in self.parameters(): p.grad = 0.0`. -/
def zeroGrad (g : Graph) (ps : List Nat) : Graph :=
  ps.foldl (fun h p => setGrad h p 0) g

/-!  ## Basic lemmas: gradient mutation touches nothing else -/

theorem length_addGrad (g : Graph) (j : Nat) (q : ℚ) :
    (addGrad g j q).nodes.length = g.nodes.length := by
  simp [addGrad]

theorem length_setGrad (g : Graph) (j : Nat) (q : ℚ) :
    (setGrad g j q).nodes.length = g.nodes.length := by
  simp [setGrad]

theorem node_set_ne (g : Graph) (j i : Nat) (nd : Value) (h : i ≠ j) :
    Graph.node ⟨g.nodes.set j nd⟩ i = g.node i := by
  unfold Graph.node
  rcases Nat.lt_or_ge i g.nodes.length with hi | hi
  · rw [List.getD_eq_getElem _ _ (by simpa using hi), List.getD_eq_getElem _ _ hi]
    simp only [List.getElem_set]
    rw [if_neg (fun hh => h hh.symm)]
  · rw [List.getD_eq_default _ _ (by simpa using hi), List.getD_eq_default _ _ hi]

theorem node_set_eq (g : Graph) (j : Nat) (nd : Value) (h : j < g.nodes.length) :
    Graph.node ⟨g.nodes.set j nd⟩ j = nd := by
  unfold Graph.node
  rw [List.getD_eq_getElem _ _ (by simpa using h)]
  simp [List.getElem_set]

theorem node_set_oob (g : Graph) (j : Nat) (nd : Value) (h : g.nodes.length ≤ j) :
    Graph.node ⟨g.nodes.set j nd⟩ i = g.node i := by
  rw [List.set_eq_of_length_le h]

theorem data_addGrad (g : Graph) (j : Nat) (q : ℚ) (i : Nat) :
    (addGrad g j q).data i = g.data i := by
  unfold addGrad Graph.data
  rcases Nat.lt_or_ge j g.nodes.length with hj | hj
  · by_cases h : i = j
    · subst h; rw [node_set_eq _ _ _ hj]; rfl
    · rw [node_set_ne _ _ _ _ h]
  · rw [node_set_oob _ _ _ hj]

theorem opAt_addGrad (g : Graph) (j : Nat) (q : ℚ) (i : Nat) :
    (addGrad g j q).opAt i = g.opAt i := by
  unfold addGrad Graph.opAt
  rcases Nat.lt_or_ge j g.nodes.length with hj | hj
  · by_cases h : i = j
    · subst h; rw [node_set_eq _ _ _ hj]; rfl
    · rw [node_set_ne _ _ _ _ h]
  · rw [node_set_oob _ _ _ hj]

theorem grad_addGrad (g : Graph) (j : Nat) (q : ℚ) (hj : j < g.nodes.length) (i : Nat) :
    (addGrad g j q).grad i = if i = j then g.grad i + q else g.grad i := by
  unfold addGrad Graph.grad
  by_cases h : i = j
  · subst h; rw [node_set_eq _ _ _ hj]; simp [Graph.node]
  · rw [node_set_ne _ _ _ _ h]; simp [h]

theorem data_setGrad (g : Graph) (j : Nat) (q : ℚ) (i : Nat) :
    (setGrad g j q).data i = g.data i := by
  unfold setGrad Graph.data
  rcases Nat.lt_or_ge j g.nodes.length with hj | hj
  · by_cases h : i = j
    · subst h; rw [node_set_eq _ _ _ hj]; rfl
    · rw [node_set_ne _ _ _ _ h]
  · rw [node_set_oob _ _ _ hj]

theorem opAt_setGrad (g : Graph) (j : Nat) (q : ℚ) (i : Nat) :
    (setGrad g j q).opAt i = g.opAt i := by
  unfold setGrad Graph.opAt
  rcases Nat.lt_or_ge j g.nodes.length with hj | hj
  · by_cases h : i = j
    · subst h; rw [node_set_eq _ _ _ hj]; rfl
    · rw [node_set_ne _ _ _ _ h]
  · rw [node_set_oob _ _ _ hj]

theorem grad_setGrad (g : Graph) (j : Nat) (q : ℚ) (hj : j < g.nodes.length) (i : Nat) :
    (setGrad g j q).grad i = if i = j then q else g.grad i := by
  unfold setGrad Graph.grad
  by_cases h : i = j
  · subst h; rw [node_set_eq _ _ _ hj]; simp
  · rw [node_set_ne _ _ _ _ h]; simp [h]

/-- Two graphs with the same static part (length, data, operations); gradients
may differ.  All of `slots`, `opRefs`, `prev`, `WFG`, `Reaches` only look at
the static part. -/
def SameShape (g h : Graph) : Prop :=
  g.nodes.length = h.nodes.length ∧ (∀ i, g.data i = h.data i) ∧ ∀ i, g.opAt i = h.opAt i

theorem sameShape_refl (g : Graph) : SameShape g g := ⟨rfl, fun _ => rfl, fun _ => rfl⟩

theorem sameShape_trans {g h k : Graph} (h1 : SameShape g h) (h2 : SameShape h k) :
    SameShape g k :=
  ⟨h1.1.trans h2.1, fun i => (h1.2.1 i).trans (h2.2.1 i), fun i => (h1.2.2 i).trans (h2.2.2 i)⟩

theorem sameShape_addGrad (g : Graph) (j : Nat) (q : ℚ) : SameShape g (addGrad g j q) :=
  ⟨(length_addGrad g j q).symm, fun i => (data_addGrad g j q i).symm,
   fun i => (opAt_addGrad g j q i).symm⟩

theorem sameShape_setGrad (g : Graph) (j : Nat) (q : ℚ) : SameShape g (setGrad g j q) :=
  ⟨(length_setGrad g j q).symm, fun i => (data_setGrad g j q i).symm,
   fun i => (opAt_setGrad g j q i).symm⟩

theorem slots_congr {g h : Graph} (hs : SameShape g h) (i : Nat) : slots g i = slots h i := by
  unfold slots
  rw [hs.2.2 i]
  cases h' : h.opAt i <;> simp [hs.2.1]

theorem opRefs_congr {g h : Graph} (hs : SameShape g h) (i : Nat) : opRefs g i = opRefs h i := by
  unfold opRefs; rw [hs.2.2 i]

theorem slotWeight_congr {g h : Graph} (hs : SameShape g h) (i n : Nat) :
    slotWeight g i n = slotWeight h i n := by
  unfold slotWeight; rw [slots_congr hs]

/-!  ## The effect of one `_backward` run -/

theorem slots_refs_mem (g : Graph) (i : Nat) :
    ∀ jd ∈ slots g i, jd.1 ∈ opRefs g i := by
  unfold slots opRefs
  cases h : g.opAt i <;> simp [Op.refs]

theorem foldl_addGrad_sameShape (i : Nat) :
    ∀ (l : List (Nat × ℚ)) (g : Graph),
      SameShape g (l.foldl (fun h jd => addGrad h jd.1 (jd.2 * h.grad i)) g)
  | [], g => sameShape_refl g
  | jd :: rest, g =>
    sameShape_trans (sameShape_addGrad g jd.1 (jd.2 * g.grad i))
      (foldl_addGrad_sameShape i rest _)

theorem sameShape_propagate (g : Graph) (i : Nat) : SameShape g (propagate g i) :=
  foldl_addGrad_sameShape i (slots g i) g

/-- The combined effect of a list of `+=` slot updates: node `n` gains the sum
of the local derivatives of the slots aimed at it, times `out.grad` (which the
updates themselves never change, as no slot aims at `i`). -/
theorem foldl_addGrad_grad (i : Nat) :
    ∀ (l : List (Nat × ℚ)) (g : Graph),
      (∀ jd ∈ l, jd.1 < g.nodes.length ∧ jd.1 ≠ i) →
      ∀ n, (l.foldl (fun h jd => addGrad h jd.1 (jd.2 * h.grad i)) g).grad n =
        g.grad n + ((l.map fun jd => if jd.1 = n then jd.2 else 0).sum) * g.grad i
  | [], g, _, n => by simp
  | jd :: rest, g, hb, n => by
    have hjd := hb jd (List.mem_cons_self _ _)
    have hrest : ∀ jd' ∈ rest, jd'.1 < (addGrad g jd.1 (jd.2 * g.grad i)).nodes.length ∧
        jd'.1 ≠ i := by
      intro jd' h'
      rw [length_addGrad]
      exact hb jd' (List.mem_cons_of_mem _ h')
    have ih := foldl_addGrad_grad i rest (addGrad g jd.1 (jd.2 * g.grad i)) hrest n
    simp only [List.foldl_cons, ih, List.map_cons, List.sum_cons]
    rw [grad_addGrad _ _ _ hjd.1, grad_addGrad _ _ _ hjd.1]
    rw [if_neg (show ¬ i = jd.1 from fun hh => hjd.2 hh.symm)]
    by_cases h : n = jd.1
    · rw [if_pos h, if_pos h.symm]; ring
    · rw [if_neg h, if_neg (fun hh => h hh.symm)]; ring

/-- Running `_backward` of node `i` adds `slotWeight g i n * out.grad` to every
node `n` — accumulation with `+=`, never overwriting. -/
theorem propagate_grad (g : Graph) (i : Nat)
    (hb : ∀ jd ∈ slots g i, jd.1 < g.nodes.length ∧ jd.1 ≠ i) (n : Nat) :
    (propagate g i).grad n = g.grad n + slotWeight g i n * g.grad i :=
  foldl_addGrad_grad i (slots g i) g hb n

/-!  ## Reachability lemmas -/

theorem reaches_trans {g : Graph} {a b c : Nat} (h1 : Reaches g a b) (h2 : Reaches g b c) :
    Reaches g a c := by
  induction h2 with
  | refl => exact h1
  | step _ hedge ih => exact Reaches.step ih hedge

theorem Reaches.le {g : Graph} (hwf : WFG g) {a b : Nat} (h : Reaches g a b) : b ≤ a := by
  induction h with
  | refl => exact Nat.le_refl _
  | step _ hedge ih => exact Nat.le_trans (Nat.le_of_lt (hwf _ _ hedge)) ih

theorem reaches_congr {g h : Graph} (hs : SameShape g h) {a b : Nat} :
    Reaches g a b → Reaches h a b := by
  intro hr
  induction hr with
  | refl => exact Reaches.refl _
  | step _ hedge ih => exact Reaches.step ih (by rwa [← opRefs_congr hs])

theorem wfg_congr {g h : Graph} (hs : SameShape g h) (hwf : WFG g) : WFG h := by
  intro i j hj
  exact hwf i j (by rwa [opRefs_congr hs])

/-- Out-of-range nodes are default leaves, so well-formedness is decidable by
checking the nodes that exist. -/
theorem opRefs_oob (g : Graph) (i : Nat) (h : g.nodes.length ≤ i) : opRefs g i = [] := by
  unfold opRefs Graph.opAt Graph.node
  rw [List.getD_eq_default _ _ h]
  rfl

theorem wfg_of_ball (g : Graph)
    (h : ∀ i < g.nodes.length, ∀ j ∈ opRefs g i, j < i) : WFG g := by
  intro i j hj
  rcases Nat.lt_or_ge i g.nodes.length with hi | hi
  · exact h i hi j hj
  · rw [opRefs_oob g i hi] at hj
    exact absurd hj (List.not_mem_nil _)

/-- All gradients of a graph vanish as soon as those of the existing nodes do. -/
theorem grad_zero_of_ball (g : Graph) (h : ∀ i < g.nodes.length, g.grad i = 0) :
    ∀ n, g.grad n = 0 := by
  intro n
  rcases Nat.lt_or_ge n g.nodes.length with hn | hn
  · exact h n hn
  · unfold Graph.grad Graph.node
    rw [List.getD_eq_default _ _ hn]
    rfl

/-!  ## Restricted path sums -/

theorem slots_lt {g : Graph} (hwf : WFG g) {v : Nat} {jd : Nat × ℚ} (h : jd ∈ slots g v) :
    jd.1 < v :=
  hwf _ _ (slots_refs_mem g v jd h)

theorem psum_succ (g : Graph) (P : List Nat) (f v n : Nat) :
    psum g P (f + 1) v n =
      if v = n then 1
      else if v ∈ P then ((slots g v).map fun jd => jd.2 * psum g P f jd.1 n).sum
      else 0 := rfl

theorem psum_not_mem (g : Graph) (P : List Nat) (fuel v n : Nat) (hv : v ∉ P) :
    psum g P fuel v n = if v = n then 1 else 0 := by
  cases fuel <;> simp [psum, hv]

theorem psum_ne_zero_le {g : Graph} (hwf : WFG g) (P : List Nat) :
    ∀ fuel a b, psum g P fuel a b ≠ 0 → b ≤ a := by
  intro fuel
  induction fuel with
  | zero =>
    intro a b h
    by_cases hab : a = b
    · exact Nat.le_of_eq hab.symm
    · simp [psum, hab] at h
  | succ f ih =>
    intro a b h
    by_cases hab : a = b
    · exact Nat.le_of_eq hab.symm
    · rw [psum_succ, if_neg hab] at h
      by_cases haP : a ∈ P
      · rw [if_pos haP] at h
        have hex : ∃ jd ∈ slots g a, jd.2 * psum g P f jd.1 b ≠ 0 := by
          by_contra hall
          push_neg at hall
          exact h (List.sum_eq_zero (by
            intro x hx
            obtain ⟨jd, hjd, rfl⟩ := List.mem_map.1 hx
            exact hall jd hjd))
        obtain ⟨jd, hjd, hne⟩ := hex
        have : psum g P f jd.1 b ≠ 0 := fun hz => hne (by rw [hz, mul_zero])
        exact Nat.le_of_lt (Nat.lt_of_le_of_lt (ih jd.1 b this) (slots_lt hwf hjd))
      · rw [if_neg haP] at h
        exact absurd rfl h

theorem psum_ne_zero_reaches (g : Graph) (P : List Nat) :
    ∀ fuel a b, psum g P fuel a b ≠ 0 → Reaches g a b := by
  intro fuel
  induction fuel with
  | zero =>
    intro a b h
    by_cases hab : a = b
    · subst hab; exact Reaches.refl a
    · simp [psum, hab] at h
  | succ f ih =>
    intro a b h
    by_cases hab : a = b
    · subst hab; exact Reaches.refl a
    · rw [psum_succ, if_neg hab] at h
      by_cases haP : a ∈ P
      · rw [if_pos haP] at h
        have hex : ∃ jd ∈ slots g a, jd.2 * psum g P f jd.1 b ≠ 0 := by
          by_contra hall
          push_neg at hall
          exact h (List.sum_eq_zero (by
            intro x hx
            obtain ⟨jd, hjd, rfl⟩ := List.mem_map.1 hx
            exact hall jd hjd))
        obtain ⟨jd, hjd, hne⟩ := hex
        have hp : psum g P f jd.1 b ≠ 0 := fun hz => hne (by rw [hz, mul_zero])
        exact reaches_trans
          (Reaches.step (Reaches.refl a) (slots_refs_mem g a jd hjd)) (ih jd.1 b hp)
      · rw [if_neg haP] at h
        exact absurd rfl h

theorem slotWeight_ne_zero {g : Graph} {v n : Nat} (h : slotWeight g v n ≠ 0) :
    ∃ jd ∈ slots g v, jd.1 = n := by
  by_contra hall
  push_neg at hall
  refine h (List.sum_eq_zero ?_)
  intro x hx
  obtain ⟨jd, hjd, rfl⟩ := List.mem_map.1 hx
  rw [if_neg (hall jd hjd)]

theorem psum_fuel_congr {g : Graph} (hwf : WFG g) (P : List Nat) :
    ∀ fuel fuel' v n, v < fuel → v < fuel' →
      psum g P fuel v n = psum g P fuel' v n := by
  intro fuel
  induction fuel with
  | zero => intro fuel' v n hv; exact absurd hv (Nat.not_lt_zero v)
  | succ f ih =>
    intro fuel' v n hv hv'
    cases fuel' with
    | zero => exact absurd hv' (Nat.not_lt_zero v)
    | succ f' =>
      rw [psum_succ, psum_succ]
      by_cases hvn : v = n
      · simp [hvn]
      · by_cases hvP : v ∈ P
        · rw [if_neg hvn, if_neg hvn, if_pos hvP, if_pos hvP]
          refine congrArg List.sum (List.map_congr_left ?_)
          intro jd hjd
          have hlt : jd.1 < v := slots_lt hwf hjd
          rw [ih f' jd.1 n (Nat.lt_of_lt_of_le hlt (Nat.lt_succ_iff.1 hv))
            (Nat.lt_of_lt_of_le hlt (Nat.lt_succ_iff.1 hv'))]
        · simp [hvn, hvP]

/-- The central step identity: enlarging the processed set by the node `v`
whose operands have not run yet adds, to the restricted path sum toward `n`,
exactly the paths that enter `v` and leave it by one of its slots (such a path
must end at that slot, since `v`'s operands are not in `P`). -/
theorem psum_insert {g : Graph} (hwf : WFG g) (P : List Nat) (v : Nat)
    (hvP : v ∉ P) (hops : ∀ jd ∈ slots g v, jd.1 ∉ P) :
    ∀ fuel u n, u < fuel →
      psum g (v :: P) fuel u n =
        psum g P fuel u n + (if u = n then 0 else psum g P fuel u v * slotWeight g v n) := by
  intro fuel
  induction fuel with
  | zero => intro u n hu; exact absurd hu (Nat.not_lt_zero u)
  | succ f ih =>
    intro u n hu
    by_cases hun : u = n
    · simp [psum_succ, hun]
    · by_cases huv : u = v
      · subst huv
        rw [psum_succ, if_neg hun, if_pos (List.mem_cons_self u P)]
        rw [psum_not_mem g P (f + 1) u n hvP, if_neg hun]
        rw [psum_not_mem g P (f + 1) u u hvP, if_pos rfl]
        rw [if_neg hun, zero_add, one_mul]
        unfold slotWeight
        refine congrArg List.sum (List.map_congr_left ?_)
        intro jd hjd
        have h1 : jd.1 ∉ u :: P := by
          intro hmem
          rcases List.mem_cons.1 hmem with h | h
          · exact absurd h (Nat.ne_of_lt (slots_lt hwf hjd))
          · exact hops jd hjd h
        rw [psum_not_mem g (u :: P) f jd.1 n h1]
        by_cases hjn : jd.1 = n <;> simp [hjn]
      · by_cases huP : u ∈ P
        · have hKey : ∀ x : ℚ, x * psum g P f n v * slotWeight g v n = 0 := by
            intro x
            by_cases hS : slotWeight g v n = 0
            · rw [hS, mul_zero]
            · obtain ⟨jd, hjd, hjn⟩ := slotWeight_ne_zero hS
              have hnv : n < v := hjn ▸ slots_lt hwf hjd
              by_cases hp : psum g P f n v = 0
              · rw [hp, mul_zero, zero_mul]
              · exact absurd (psum_ne_zero_le hwf P f n v hp) (Nat.not_le_of_lt hnv)
          rw [psum_succ, psum_succ, psum_succ]
          simp only [if_neg hun, if_neg huv, if_pos huP,
            if_pos (List.mem_cons_of_mem v huP)]
          have hterm : ∀ jd ∈ slots g u,
              jd.2 * psum g (v :: P) f jd.1 n =
                jd.2 * psum g P f jd.1 n + jd.2 * psum g P f jd.1 v * slotWeight g v n := by
            intro jd hjd
            have hlt : jd.1 < f := Nat.lt_of_lt_of_le (slots_lt hwf hjd) (Nat.lt_succ_iff.1 hu)
            rw [ih jd.1 n hlt]
            by_cases hjn : jd.1 = n
            · rw [if_pos hjn, hjn, hKey jd.2]; ring
            · rw [if_neg hjn]; ring
          rw [List.map_congr_left hterm, List.sum_map_add]
          rw [List.sum_map_mul_right]
        · have hu1 : u ∉ v :: P := by
            intro hmem
            rcases List.mem_cons.1 hmem with h | h
            · exact huv h
            · exact huP h
          rw [psum_not_mem g (v :: P) (f + 1) u n hu1, psum_not_mem g P (f + 1) u n huP,
            psum_not_mem g P (f + 1) u v huP]
          simp [hun, huv]

/-!  ## The topological sort built by `backward` -/

/-- Operand-closure of the finished (`topo`-appended) nodes: every operand of an
appended node has been appended. -/
def Closed (g : Graph) (acc : List Nat) : Prop :=
  ∀ a ∈ acc, ∀ j ∈ opRefs g a, j ∈ acc

/-- Topological soundness of the accumulated list: no element is an operand of
an element that precedes it (operands are only ever appended first). -/
def OrderedT (g : Graph) (acc : List Nat) : Prop :=
  acc.Pairwise fun a b => b ∉ opRefs g a

/-- Invariant tying the `visited` set and the `topo` accumulator of `build_topo`. -/
structure DfsInv (g : Graph) (vis acc : List Nat) : Prop where
  nodup : acc.Nodup
  sub : ∀ a ∈ acc, a ∈ vis
  closed : Closed g acc
  ordered : OrderedT g acc

/-- Everything one `build_topo(i)` call guarantees: the invariant persists, the
accumulator only grows, newly visited nodes are exactly the newly appended
ones, `i` ends up appended, and every new node is reachable from `i`, bounded
by `i`, and was unvisited. -/
def DfsOut (g : Graph) (i : Nat) (vis acc vis' acc' : List Nat) : Prop :=
  DfsInv g vis' acc' ∧ (∃ t, acc' = acc ++ t) ∧
  (∀ n, n ∈ vis' ↔ n ∈ vis ∨ n ∈ acc') ∧
  (∀ n ∈ vis', n ∈ acc' ∨ n ∈ vis) ∧
  i ∈ acc' ∧
  (∀ n ∈ acc', n ∈ acc ∨ (Reaches g i n ∧ n ≤ i ∧ n ∉ vis))

theorem dfsAux_succ (g : Graph) (f i : Nat) (st : List Nat × List Nat) :
    dfsAux g (f + 1) i st =
      if i ∈ st.1 then st
      else
        (((prev g i).foldl (fun s c => dfsAux g f c s) (i :: st.1, st.2)).1,
         ((prev g i).foldl (fun s c => dfsAux g f c s) (i :: st.1, st.2)).2 ++ [i]) := rfl

theorem prev_lt {g : Graph} (hwf : WFG g) {i c : Nat} (h : c ∈ prev g i) : c < i :=
  hwf i c (List.mem_dedup.1 h)

/-- The loop `for child in node._prev: build_topo(child)`, specified given the
behaviour of the recursive calls it makes. -/
theorem dfs_children_spec (g : Graph) (f : Nat)
    (IH : ∀ c vis acc vis' acc', c < f → DfsInv g vis acc →
      (∀ n ∈ vis, n ∈ acc ∨ c < n) → dfsAux g f c (vis, acc) = (vis', acc') →
      DfsOut g c vis acc vis' acc') (i : Nat) :
    ∀ cs : List Nat, (∀ c ∈ cs, c < i) → i ≤ f →
      ∀ vis acc vis' acc', DfsInv g vis acc → (∀ n ∈ vis, n ∈ acc ∨ i ≤ n) →
        cs.foldl (fun s c => dfsAux g f c s) (vis, acc) = (vis', acc') →
        DfsInv g vis' acc' ∧ (∃ t, acc' = acc ++ t) ∧
        (∀ n, n ∈ vis' ↔ n ∈ vis ∨ n ∈ acc') ∧
        (∀ n ∈ vis', n ∈ acc' ∨ n ∈ vis) ∧
        (∀ c ∈ cs, c ∈ acc') ∧
        (∀ n ∈ acc', n ∈ acc ∨ ((∃ c ∈ cs, Reaches g c n) ∧ n < i ∧ n ∉ vis)) := by
  intro cs
  induction cs with
  | nil =>
    intro _ _ vis acc vis' acc' hinv hpre heq
    simp only [List.foldl_nil, Prod.mk.injEq] at heq
    obtain ⟨rfl, rfl⟩ := heq
    refine ⟨hinv, ⟨[], by simp⟩, ?_, ?_, ?_, ?_⟩
    · intro n
      constructor
      · intro h; exact Or.inl h
      · rintro (h | h)
        · exact h
        · exact hinv.sub n h
    · intro n hn; exact Or.inr hn
    · intro c hc; exact absurd hc (List.not_mem_nil c)
    · intro n hn; exact Or.inl hn
  | cons c cs' ihcs =>
    intro hlt hif vis acc vis' acc' hinv hpre heq
    have hci : c < i := hlt c (List.mem_cons_self c cs')
    rw [List.foldl_cons] at heq
    rcases h1 : dfsAux g f c (vis, acc) with ⟨v1, a1⟩
    rw [h1] at heq
    have O1 : DfsOut g c vis acc v1 a1 := by
      refine IH c vis acc v1 a1 (Nat.lt_of_lt_of_le hci hif) hinv ?_ h1
      intro n hn
      rcases hpre n hn with h | h
      · exact Or.inl h
      · exact Or.inr (Nat.lt_of_lt_of_le hci h)
    obtain ⟨inv1, ⟨t1, hext1⟩, mem1, black1, self1, new1⟩ := O1
    have hpre1 : ∀ n ∈ v1, n ∈ a1 ∨ i ≤ n := by
      intro n hn
      rcases black1 n hn with h | h
      · exact Or.inl h
      · rcases hpre n h with h' | h'
        · exact Or.inl (hext1 ▸ List.mem_append_left t1 h')
        · exact Or.inr h'
    obtain ⟨inv2, ⟨t2, hext2⟩, mem2, black2, all2, new2⟩ :=
      ihcs (fun c' hc' => hlt c' (List.mem_cons_of_mem c hc')) hif v1 a1 vis' acc'
        inv1 hpre1 heq
    have ha1sub : ∀ n ∈ a1, n ∈ acc' := by
      intro n hn; exact hext2 ▸ List.mem_append_left t2 hn
    refine ⟨inv2, ⟨t1 ++ t2, by rw [hext2, hext1, List.append_assoc]⟩, ?_, ?_, ?_, ?_⟩
    · intro n
      constructor
      · intro h
        rcases (mem2 n).1 h with h' | h'
        · rcases (mem1 n).1 h' with h'' | h''
          · exact Or.inl h''
          · exact Or.inr (ha1sub n h'')
        · exact Or.inr h'
      · rintro (h | h)
        · exact (mem2 n).2 (Or.inl ((mem1 n).2 (Or.inl h)))
        · exact (mem2 n).2 (Or.inr h)
    · intro n hn
      rcases black2 n hn with h | h
      · exact Or.inl h
      · rcases black1 n h with h' | h'
        · exact Or.inl (ha1sub n h')
        · exact Or.inr h'
    · intro c' hc'
      rcases List.mem_cons.1 hc' with h | h
      · subst h; exact ha1sub c' self1
      · exact all2 c' h
    · intro n hn
      rcases new2 n hn with h | ⟨⟨c', hc', hr⟩, hni, hnv1⟩
      · rcases new1 n h with h' | ⟨hr, hle, hnv⟩
        · exact Or.inl h'
        · exact Or.inr ⟨⟨c, List.mem_cons_self c cs', hr⟩,
            Nat.lt_of_le_of_lt hle hci, hnv⟩
      · refine Or.inr ⟨⟨c', List.mem_cons_of_mem c hc', hr⟩, hni, ?_⟩
        intro hmem
        exact hnv1 ((mem1 n).2 (Or.inl hmem))

/-- Full specification of `build_topo(i)` on a well-formed graph. -/
theorem dfs_spec (g : Graph) (hwf : WFG g) :
    ∀ f i vis acc vis' acc', i < f → DfsInv g vis acc →
      (∀ n ∈ vis, n ∈ acc ∨ i < n) → dfsAux g f i (vis, acc) = (vis', acc') →
      DfsOut g i vis acc vis' acc' := by
  intro f
  induction f with
  | zero => intro i _ _ _ _ hif; exact absurd hif (Nat.not_lt_zero i)
  | succ f ihf =>
    intro i vis acc vis' acc' hif hinv hpre heq
    rw [dfsAux_succ] at heq
    by_cases hivis : i ∈ vis
    · rw [if_pos hivis] at heq
      simp only [Prod.mk.injEq] at heq
      obtain ⟨rfl, rfl⟩ := heq
      have hiacc : i ∈ acc := by
        rcases hpre i hivis with h | h
        · exact h
        · exact absurd h (Nat.lt_irrefl i)
      refine ⟨hinv, ⟨[], by simp⟩, ?_, ?_, hiacc, ?_⟩
      · intro n
        constructor
        · intro h; exact Or.inl h
        · rintro (h | h)
          · exact h
          · exact hinv.sub n h
      · intro n hn; exact Or.inr hn
      · intro n hn; exact Or.inl hn
    · rw [if_neg hivis] at heq
      rcases hch : (prev g i).foldl (fun s c => dfsAux g f c s) (i :: vis, acc)
        with ⟨v1, a1⟩
      rw [hch] at heq
      simp only [Prod.mk.injEq] at heq
      obtain ⟨rfl, rfl⟩ := heq
      have hinv0 : DfsInv g (i :: vis) acc :=
        ⟨hinv.nodup, fun a ha => List.mem_cons_of_mem i (hinv.sub a ha),
         hinv.closed, hinv.ordered⟩
      have hpre0 : ∀ n ∈ i :: vis, n ∈ acc ∨ i ≤ n := by
        intro n hn
        rcases List.mem_cons.1 hn with h | h
        · exact Or.inr (Nat.le_of_eq h.symm)
        · rcases hpre n h with h' | h'
          · exact Or.inl h'
          · exact Or.inr (Nat.le_of_lt h')
      obtain ⟨inv1, ⟨t1, hext1⟩, mem1, black1, all1, new1⟩ :=
        dfs_children_spec g f (fun c vs ac vs' ac' hcf hi hp he => ihf c vs ac vs' ac' hcf hi hp he)
          i (prev g i) (fun c hc => prev_lt hwf hc) (Nat.lt_succ_iff.1 hif)
          (i :: vis) acc v1 a1 hinv0 hpre0 hch
      have hrefs : ∀ j ∈ opRefs g i, j ∈ a1 := by
        intro j hj
        exact all1 j (List.mem_dedup.2 hj)
      have hia1 : i ∉ a1 := by
        intro hmem
        rcases new1 i hmem with h | ⟨_, _, hnv⟩
        · exact hivis (hinv.sub i h)
        · exact hnv (List.mem_cons_self i vis)
      have hvismem : ∀ n ∈ vis, n ∈ v1 := fun n hn =>
        (mem1 n).2 (Or.inl (List.mem_cons_of_mem i hn))
      refine ⟨?_, ⟨t1 ++ [i], by rw [hext1, List.append_assoc]⟩, ?_, ?_,
        List.mem_append_right a1 (List.mem_singleton.2 rfl), ?_⟩
      · refine ⟨?_, ?_, ?_, ?_⟩
        · rw [List.nodup_append]
          exact ⟨inv1.nodup, List.nodup_singleton i,
            fun a ha hb => hia1 ((List.mem_singleton.1 hb) ▸ ha)⟩
        · intro a ha
          rcases List.mem_append.1 ha with h | h
          · exact inv1.sub a h
          · rw [List.mem_singleton.1 h]
            exact (mem1 i).2 (Or.inl (List.mem_cons_self i vis))
        · intro a ha j hj
          rcases List.mem_append.1 ha with h | h
          · exact List.mem_append_left [i] (inv1.closed a h j hj)
          · rw [List.mem_singleton.1 h] at hj
            exact List.mem_append_left [i] (hrefs j hj)
        · unfold OrderedT
          rw [List.pairwise_append]
          refine ⟨inv1.ordered, List.pairwise_singleton _ i, ?_⟩
          intro a ha b hb hmem
          rw [List.mem_singleton.1 hb] at hmem
          exact hia1 (inv1.closed a ha i hmem)
      · intro n
        constructor
        · intro h
          rcases (mem1 n).1 h with h' | h'
          · rcases List.mem_cons.1 h' with h'' | h''
            · exact Or.inr (List.mem_append_right a1 (List.mem_singleton.2 h''))
            · exact Or.inl h''
          · exact Or.inr (List.mem_append_left [i] h')
        · rintro (h | h)
          · exact hvismem n h
          · rcases List.mem_append.1 h with h' | h'
            · exact (mem1 n).2 (Or.inr h')
            · rw [List.mem_singleton.1 h']
              exact (mem1 i).2 (Or.inl (List.mem_cons_self i vis))
      · intro n hn
        rcases black1 n hn with h | h
        · exact Or.inl (List.mem_append_left [i] h)
        · rcases List.mem_cons.1 h with h' | h'
          · exact Or.inl (List.mem_append_right a1 (List.mem_singleton.2 h'))
          · exact Or.inr h'
      · intro n hn
        rcases List.mem_append.1 hn with h | h
        · rcases new1 n h with h' | ⟨⟨c, hc, hr⟩, hni, hnv⟩
          · exact Or.inl h'
          · refine Or.inr ⟨?_, Nat.le_of_lt hni, ?_⟩
            · exact reaches_trans
                (Reaches.step (Reaches.refl i) (List.mem_dedup.1 hc)) hr
            · intro hmem; exact hnv (List.mem_cons_of_mem i hmem)
        · rw [List.mem_singleton.1 h]
          exact Or.inr ⟨Reaches.refl i, Nat.le_refl i, hivis⟩

theorem reaches_mem_closed {g : Graph} {acc : List Nat} (hc : Closed g acc) {a : Nat}
    (ha : a ∈ acc) : ∀ {b : Nat}, Reaches g a b → b ∈ acc := by
  intro b hr
  induction hr with
  | refl => exact ha
  | step _ hedge ih => exact hc _ ih _ hedge

/-- The list `topo` built by `backward`: no duplicates, it holds exactly the
nodes reachable from the root, every node is bounded by the root, its operand
sets are contained in it, and no element is an operand of an earlier element. -/
theorem buildTopo_props (g : Graph) (hwf : WFG g) (root : Nat) :
    (buildTopo g root).Nodup ∧ Closed g (buildTopo g root) ∧
    OrderedT g (buildTopo g root) ∧ root ∈ buildTopo g root ∧
    (∀ n, n ∈ buildTopo g root ↔ Reaches g root n) ∧
    (∀ n ∈ buildTopo g root, n ≤ root) := by
  rcases hd : dfsAux g (root + 1) root ([], []) with ⟨v1, a1⟩
  have htopo : buildTopo g root = a1 := by rw [buildTopo, hd]
  have hinv : DfsInv g [] [] :=
    ⟨List.nodup_nil, fun a ha => absurd ha (List.not_mem_nil a),
     fun a ha => absurd ha (List.not_mem_nil a), List.Pairwise.nil⟩
  obtain ⟨inv1, _, _, _, self1, new1⟩ :=
    dfs_spec g hwf (root + 1) root [] [] v1 a1 (Nat.lt_succ_self root) hinv
      (fun n hn => absurd hn (List.not_mem_nil n)) hd
  rw [htopo]
  have hreach : ∀ n ∈ a1, Reaches g root n ∧ n ≤ root := by
    intro n hn
    rcases new1 n hn with h | ⟨hr, hle, _⟩
    · exact absurd h (List.not_mem_nil n)
    · exact ⟨hr, hle⟩
  refine ⟨inv1.nodup, inv1.closed, inv1.ordered, self1, ?_, fun n hn => (hreach n hn).2⟩
  intro n
  constructor
  · intro hn; exact (hreach n hn).1
  · intro hr; exact reaches_mem_closed inv1.closed self1 hr

theorem op_of_refs_nil {g : Graph} {i : Nat} (h : opRefs g i = []) : g.opAt i = Op.leaf := by
  unfold opRefs at h
  cases hop : g.opAt i <;> rw [hop] at h <;> first | rfl | exact absurd h (by simp [Op.refs])

theorem buildTopo_leaf (g : Graph) (root : Nat) (h : opRefs g root = []) :
    buildTopo g root = [root] := by
  unfold buildTopo
  rw [dfsAux_succ]
  simp [prev, h]

theorem sum_flatMap (l : List (Nat × ℚ)) (h : Nat × ℚ → List ℚ) :
    (l.flatMap h).sum = (l.map fun a => (h a).sum).sum := by
  rw [List.flatMap, List.sum_flatten, List.map_map]; rfl

/-- Once the processed set covers everything reachable from `r`, the restricted
path sum is the full one: the sum over all operand-paths of the product of the
local derivatives. -/
theorem psum_full {g : Graph} (hwf : WFG g) (P : List Nat) (r : Nat)
    (hsub : ∀ u, Reaches g r u → u ∈ P) :
    ∀ fuel v n, v < fuel → Reaches g r v →
      psum g P fuel v n = (pathProds g fuel v n).sum := by
  intro fuel
  induction fuel with
  | zero => intro v n hv; exact absurd hv (Nat.not_lt_zero v)
  | succ f ih =>
    intro v n hv hr
    by_cases hvn : v = n
    · simp [psum_succ, pathProds, hvn]
    · rw [psum_succ, if_neg hvn, if_pos (hsub v hr)]
      show _ = (pathProds g (f + 1) v n).sum
      rw [pathProds, if_neg hvn, sum_flatMap]
      refine congrArg List.sum (List.map_congr_left ?_)
      intro jd hjd
      have hlt : jd.1 < f := Nat.lt_of_lt_of_le (slots_lt hwf hjd) (Nat.lt_succ_iff.1 hv)
      rw [List.sum_map_mul_left, ih jd.1 n hlt
        (Reaches.step hr (slots_refs_mem g v jd hjd)), List.map_id']

/-- The processing loop of `backward`, specified for every suffix `t` of the
topological list: after the nodes of `t` have propagated (in reverse order),
each node carries its initial gradient plus the sum over the paths whose inner
nodes all lie in `t`. -/
theorem backward_fold (g : Graph) (hwf : WFG g) (root : Nat)
    (hroot : root < g.nodes.length)
    (hz : ∀ n, Reaches g root n → g.grad n = 0) :
    ∀ t l1, buildTopo g root = l1 ++ t →
      (∀ n, ((t.reverse).foldl (fun h i => propagate h i) (setGrad g root 1)).grad n =
        g.grad n + psum g t (root + 1) root n) ∧
      SameShape g ((t.reverse).foldl (fun h i => propagate h i) (setGrad g root 1)) := by
  obtain ⟨hnodup, hclosed, hordered, hrootmem, hmemiff, hle⟩ := buildTopo_props g hwf root
  intro t
  induction t with
  | nil =>
    intro l1 _
    refine ⟨?_, sameShape_setGrad g root 1⟩
    intro n
    simp only [List.reverse_nil, List.foldl_nil]
    rw [grad_setGrad g root 1 hroot n, psum_succ]
    by_cases hn : n = root
    · subst hn
      rw [if_pos rfl, if_pos rfl, hz n (Reaches.refl n), zero_add]
    · rw [if_neg hn, if_neg (fun hh => hn hh.symm)]
      simp
  | cons v t' iht =>
    intro l1 hsplit
    have hsplit' : buildTopo g root = (l1 ++ [v]) ++ t' := by
      rw [hsplit, List.append_assoc]; rfl
    obtain ⟨ihg, ihs⟩ := iht (l1 ++ [v]) hsplit'
    have hvmem : v ∈ buildTopo g root := by
      rw [hsplit]
      exact List.mem_append_right l1 (List.mem_cons_self v t')
    have hvroot : v ≤ root := hle v hvmem
    have hvt' : v ∉ t' := by
      have : (v :: t').Nodup := ((List.nodup_append.1 (hsplit ▸ hnodup)).2).1
      exact (List.nodup_cons.1 this).1
    have hops : ∀ jd ∈ slots g v, jd.1 ∉ t' := by
      intro jd hjd hmem
      have hpw : (v :: t').Pairwise (fun a b => b ∉ opRefs g a) :=
        ((List.pairwise_append.1 (hsplit ▸ hordered)).2).1
      exact (List.pairwise_cons.1 hpw).1 jd.1 hmem (slots_refs_mem g v jd hjd)
    set G : Graph := (t'.reverse).foldl (fun h i => propagate h i) (setGrad g root 1) with hG
    have hfold : ((v :: t').reverse).foldl (fun h i => propagate h i) (setGrad g root 1) =
        propagate G v := by
      rw [List.reverse_cons, List.foldl_append]
      rfl
    have hb : ∀ jd ∈ slots G v, jd.1 < G.nodes.length ∧ jd.1 ≠ v := by
      intro jd hjd
      rw [← slots_congr ihs v] at hjd
      have h1 : jd.1 < v := slots_lt hwf hjd
      exact ⟨Nat.lt_of_lt_of_le (Nat.lt_of_lt_of_le h1 hvroot)
        (Nat.le_of_lt (ihs.1 ▸ hroot)), Nat.ne_of_lt h1⟩
    constructor
    · intro n
      rw [hfold, propagate_grad G v hb n, ihg n, ihg v]
      rw [← slotWeight_congr ihs v n]
      rw [hz v ((hmemiff v).1 hvmem), zero_add]
      rw [psum_insert hwf t' v hvt' hops (root + 1) root n (Nat.lt_succ_self root)]
      by_cases hn : root = n
      · rw [if_pos hn]
        have hsw : slotWeight g v n = 0 := by
          by_contra hne
          obtain ⟨jd, hjd, hjn⟩ := slotWeight_ne_zero hne
          have : jd.1 < v := slots_lt hwf hjd
          rw [hjn, ← hn] at this
          exact absurd hvroot (Nat.not_le_of_lt this)
        rw [hsw]
        ring
      · rw [if_neg hn]
        ring
    · rw [hfold]
      exact sameShape_trans ihs (sameShape_propagate G v)

theorem slots_of_leaf {g : Graph} {i : Nat} (h : g.opAt i = Op.leaf) : slots g i = [] := by
  unfold slots
  rw [h]

theorem backward_leaf (g : Graph) (root : Nat) (h : opRefs g root = []) :
    backward g root = setGrad g root 1 := by
  unfold backward
  rw [buildTopo_leaf g root h]
  simp only [List.reverse_cons, List.reverse_nil, List.nil_append, List.foldl_cons,
    List.foldl_nil]
  have hs : slots (setGrad g root 1) root = [] :=
    slots_of_leaf (by rw [opAt_setGrad, op_of_refs_nil h])
  unfold propagate
  rw [hs]
  rfl

theorem derivSum_self (g : Graph) (root : Nat) : derivSum g root root = 1 := by
  simp [derivSum, pathProds]

theorem backward_grad (g : Graph) (hwf : WFG g) (root : Nat)
    (hroot : root < g.nodes.length) (hz : ∀ n, Reaches g root n → g.grad n = 0) :
    ∀ n, (backward g root).grad n =
      g.grad n + psum g (buildTopo g root) (root + 1) root n :=
  (backward_fold g hwf root hroot hz (buildTopo g root) [] (by simp)).1

/-!  ## Claim C1 -/

/-- **C1**: for a root with an acyclic operand relation (here: the index
well-foundedness every constructed graph has) whose reachable nodes all carry
gradient `0` before the call, `backward` leaves every reachable node `n` with
gradient `∂root/∂n`, i.e. the sum over all operand-paths from the root to `n`
of the product of the local derivatives along each path (`derivSum`); the root
itself ends at `1`; unreachable nodes are untouched; and on a node with no
operands `backward` merely sets that node's own gradient to `1` and changes
nothing else. -/
theorem c1_backward_correct (g : Graph) (root : Nat) (hwf : WFG g)
    (hroot : root < g.nodes.length) (hz : ∀ n, Reaches g root n → g.grad n = 0) :
    (∀ n, Reaches g root n → (backward g root).grad n = derivSum g root n) ∧
    (backward g root).grad root = 1 ∧
    (∀ n, ¬ Reaches g root n → (backward g root).grad n = g.grad n) ∧
    (opRefs g root = [] → backward g root = setGrad g root 1) := by
  obtain ⟨hnodup, hclosed, hordered, hrootmem, hmemiff, hle⟩ := buildTopo_props g hwf root
  have hmain : ∀ n, Reaches g root n → (backward g root).grad n = derivSum g root n := by
    intro n hr
    rw [backward_grad g hwf root hroot hz n, hz n hr, zero_add]
    rw [psum_full hwf (buildTopo g root) root (fun u hu => (hmemiff u).2 hu)
      (root + 1) root n (Nat.lt_succ_self root) (Reaches.refl root)]
    rfl
  refine ⟨hmain, ?_, ?_, backward_leaf g root⟩
  · rw [hmain root (Reaches.refl root), derivSum_self]
  · intro n hn
    rw [backward_grad g hwf root hroot hz n]
    by_cases hp : psum g (buildTopo g root) (root + 1) root n = 0
    · rw [hp, add_zero]
    · exact absurd (psum_ne_zero_reaches g (buildTopo g root) (root + 1) root n hp) hn

/-- The witness graph for C1: `a = Value(3)`, `b = Value(4)`, `y = a * b`. -/
def gC1 : Graph := ⟨[⟨3, 0, Op.leaf⟩, ⟨4, 0, Op.leaf⟩, ⟨12, 0, Op.mul 0 1⟩]⟩

theorem c1_backward_correct_witness :
    2 < gC1.nodes.length ∧
    (backward gC1 2).grad 0 = derivSum gC1 2 0 ∧
    (backward gC1 2).grad 2 = 1 :=
  have hwf : WFG gC1 := wfg_of_ball gC1 (by decide)
  have hz : ∀ n, Reaches gC1 2 n → gC1.grad n = 0 :=
    fun n _ => grad_zero_of_ball gC1 (by decide) n
  ⟨by decide,
   (c1_backward_correct gC1 2 hwf (by decide) hz).1 0
     (Reaches.step (Reaches.refl 2) (by decide)),
   (c1_backward_correct gC1 2 hwf (by decide) hz).2.1⟩

/-!  ## Claim C3 -/

/-- **C3**: on an acyclic graph the topological list built inside `backward`
contains each node reachable from the root exactly once — nodes identified by
index (identity), never by stored value — and every node appears strictly
after all of its operands (equivalently: the operands of any element all lie
in the prefix before it). -/
theorem c3_topo_order (g : Graph) (root : Nat) (hwf : WFG g) :
    (buildTopo g root).Nodup ∧
    (∀ n, n ∈ buildTopo g root ↔ Reaches g root n) ∧
    (∀ n, Reaches g root n → (buildTopo g root).count n = 1) ∧
    (∀ l1 v l2, buildTopo g root = l1 ++ v :: l2 → ∀ j ∈ opRefs g v, j ∈ l1) := by
  obtain ⟨hnodup, hclosed, hordered, hrootmem, hmemiff, hle⟩ := buildTopo_props g hwf root
  refine ⟨hnodup, hmemiff, ?_, ?_⟩
  · intro n hr
    exact List.count_eq_one_of_mem hnodup ((hmemiff n).2 hr)
  · intro l1 v l2 hsplit j hj
    have hvmem : v ∈ buildTopo g root := by
      rw [hsplit]; exact List.mem_append_right l1 (List.mem_cons_self v l2)
    have hjmem : j ∈ buildTopo g root := hclosed v hvmem j hj
    have hjv : j ≠ v := Nat.ne_of_lt (hwf v j hj)
    have hjl2 : j ∉ l2 := by
      have hpw : (v :: l2).Pairwise (fun a b => b ∉ opRefs g a) :=
        ((List.pairwise_append.1 (hsplit ▸ hordered)).2).1
      intro hmem
      exact (List.pairwise_cons.1 hpw).1 j hmem hj
    rw [hsplit] at hjmem
    rcases List.mem_append.1 hjmem with h | h
    · exact h
    · rcases List.mem_cons.1 h with h' | h'
      · exact absurd h' hjv
      · exact absurd h' hjl2

/-- The witness graph for C3: two distinct leaves carrying the same value `5`,
combined by an addition — both occur separately in the topological list. -/
def gC3 : Graph := ⟨[⟨5, 0, Op.leaf⟩, ⟨5, 0, Op.leaf⟩, ⟨10, 0, Op.add 0 1⟩]⟩

theorem c3_topo_order_witness :
    WFG gC3 ∧ (buildTopo gC3 2).Nodup ∧ (∀ n, n ∈ buildTopo gC3 2 ↔ Reaches gC3 2 n) :=
  have hwf : WFG gC3 := wfg_of_ball gC3 (by decide)
  ⟨hwf, (c3_topo_order gC3 2 hwf).1, (c3_topo_order gC3 2 hwf).2.1⟩

/-!  ## Claim C2 -/

/-- `x = Value(3)` followed by `y = x + x`: both operands of the sum are the
same node. -/
def xPair : Nat × Graph := mkValue ⟨[]⟩ 3

def yPair : Nat × Graph := vadd xPair.2 xPair.1 xPair.1

/-- **C2**: every operation's `_backward` accumulates with `+=` (never
overwrites) into its operands' gradients, using the out-node's gradient as the
upstream factor: running `propagate` adds `slotWeight * out.grad` to every
node, where the slot table realises exactly the local-derivative rules of the
specification for add, multiply, power, exp, tanh and relu; a node used as
both operands of one addition receives the contribution twice; and concretely,
for `y = x + x` built from `x = Value(3)`, `y.backward()` leaves
`x.grad == 2`. -/
theorem c2_propagate_rules (g : Graph) (i : Nat)
    (hb : ∀ jd ∈ slots g i, jd.1 < g.nodes.length ∧ jd.1 ≠ i) :
    (∀ n, (propagate g i).grad n = g.grad n + slotWeight g i n * g.grad i) ∧
    (∀ a b, g.opAt i = Op.add a b → slots g i = [(a, 1), (b, 1)]) ∧
    (∀ a b, g.opAt i = Op.mul a b → slots g i = [(a, g.data b), (b, g.data a)]) ∧
    (∀ a k, g.opAt i = Op.pow a k → slots g i = [(a, (k : ℚ) * g.data a ^ (k - 1))]) ∧
    (∀ a, g.opAt i = Op.exp a → slots g i = [(a, g.data i)]) ∧
    (∀ a, g.opAt i = Op.tanh a → slots g i = [(a, 1 - g.data i ^ 2)]) ∧
    (∀ a, g.opAt i = Op.relu a → slots g i = [(a, if 0 < g.data i then 1 else 0)]) ∧
    (∀ a, g.opAt i = Op.add a a → (propagate g i).grad a = g.grad a + 2 * g.grad i) ∧
    (backward yPair.2 yPair.1).grad xPair.1 = 2 := by
  have hmain : ∀ n, (propagate g i).grad n = g.grad n + slotWeight g i n * g.grad i :=
    propagate_grad g i hb
  refine ⟨hmain, ?_, ?_, ?_, ?_, ?_, ?_, ?_, ?_⟩
  · intro a b h; unfold slots; rw [h]
  · intro a b h; unfold slots; rw [h]
  · intro a k h; unfold slots; rw [h]
  · intro a h; unfold slots; rw [h]
  · intro a h; unfold slots; rw [h]
  · intro a h; unfold slots; rw [h]
  · intro a h
    have hsl : slots g i = [(a, 1), (a, 1)] := by unfold slots; rw [h]
    rw [hmain a]
    unfold slotWeight
    rw [hsl]
    simp only [List.map_cons, List.map_nil, List.sum_cons, List.sum_nil,
      eq_self_iff_true, if_true]
    ring
  · norm_num [backward, buildTopo, dfsAux, prev, opRefs, Op.refs, Graph.opAt,
      Graph.node, Graph.grad, Graph.data, setGrad, propagate, slots, addGrad,
      yPair, xPair, mkValue, vadd, Graph.push, List.dedup]

theorem c2_propagate_rules_witness :
    (∀ jd ∈ slots yPair.2 1, jd.1 < yPair.2.nodes.length ∧ jd.1 ≠ 1) ∧
    (propagate yPair.2 1).grad 0 =
      yPair.2.grad 0 + slotWeight yPair.2 1 0 * yPair.2.grad 1 :=
  ⟨by decide, (c2_propagate_rules yPair.2 1 (by decide)).1 0⟩

/-!  ## Graph construction lemmas -/

theorem length_push (g : Graph) (nd : Value) :
    (g.push nd).2.nodes.length = g.nodes.length + 1 := by
  simp [Graph.push]

theorem node_push_new (g : Graph) (nd : Value) :
    (g.push nd).2.node g.nodes.length = nd := by
  unfold Graph.push Graph.node
  rw [List.getD_append_right _ _ _ _ (Nat.le_refl _)]
  simp

theorem node_push_old (g : Graph) (nd : Value) (i : Nat) (h : i < g.nodes.length) :
    (g.push nd).2.node i = g.node i := by
  unfold Graph.push Graph.node
  exact List.getD_append _ _ _ _ h

/-- `h` holds every node of `g` unchanged (the arena only ever grows; existing
nodes are never moved or rewritten by construction). -/
def Extends (g h : Graph) : Prop :=
  g.nodes.length ≤ h.nodes.length ∧ ∀ i < g.nodes.length, h.node i = g.node i

theorem extends_refl (g : Graph) : Extends g g := ⟨Nat.le_refl _, fun _ _ => rfl⟩

theorem extends_trans {g h k : Graph} (h1 : Extends g h) (h2 : Extends h k) :
    Extends g k :=
  ⟨Nat.le_trans h1.1 h2.1,
   fun i hi => (h2.2 i (Nat.lt_of_lt_of_le hi h1.1)).trans (h1.2 i hi)⟩

theorem extends_push (g : Graph) (nd : Value) : Extends g (g.push nd).2 :=
  ⟨by rw [length_push]; exact Nat.le_succ _, fun i hi => node_push_old g nd i hi⟩

theorem Extends.data {g h : Graph} (he : Extends g h) {i : Nat}
    (hi : i < g.nodes.length) : h.data i = g.data i := by
  unfold Graph.data
  rw [he.2 i hi]

theorem Extends.argData {g h : Graph} (he : Extends g h) (a : PyArg)
    (ha : ∀ j, a = PyArg.node j → j < g.nodes.length) : argData h a = argData g a := by
  cases a with
  | node j => exact he.data (ha j rfl)
  | num q => rfl

theorem data_push_new (g : Graph) (nd : Value) :
    (g.push nd).2.data g.nodes.length = nd.data := by
  unfold Graph.data
  rw [node_push_new]

/-!  ## Claim C6 -/

/-- **C6**: `__pow__` with a node-valued exponent fails immediately at call
time with `InvalidExponentType`, producing no node; with a numeric exponent it
succeeds, the produced node's value is `self.data ** other` and its only
operand is the base. -/
theorem c6_pow_exponent_check (g : Graph) (a : Nat) :
    (∀ j, vpow g a (PowArg.node j) = Except.error AutogradError.invalidExponentType) ∧
    (∀ k : ℤ, vpow g a (PowArg.scalar k) = Except.ok (vpowS g a k) ∧
      (vpowS g a k).2.data (vpowS g a k).1 = g.data a ^ k ∧
      opRefs (vpowS g a k).2 (vpowS g a k).1 = [a] ∧
      (vpowS g a k).2.nodes.length = g.nodes.length + 1 ∧
      Extends g (vpowS g a k).2) := by
  refine ⟨fun j => rfl, fun k => ⟨rfl, ?_, ?_, length_push _ _, extends_push _ _⟩⟩
  · exact data_push_new g _
  · show (((g.push ⟨g.data a ^ k, 0, Op.pow a k⟩).2.node g.nodes.length).op).refs = [a]
    rw [node_push_new]
    rfl

/-!  ## Claim C5 -/

/-- `b = Value(3)`, then the reflected subtraction `5 - b`. -/
def bSubPair : Nat × Graph := mkValue ⟨[]⟩ 3

def rsubPair : Nat × Graph := vrsub bSubPair.2 bSubPair.1 5

/-- `b = Value(4)`, then the reflected division `2 / b`. -/
def bDivPair : Nat × Graph := mkValue ⟨[]⟩ 4

def rdivPair : Nat × Graph := vrdiv bDivPair.2 bDivPair.1 2

/-- **C5** (evaluation at the failing inputs): the source's `__rsub__` and
`__rtruediv__` bodies are `self + (-other)` and `self * (other**-1)` — the
same bodies as `__sub__`/`__truediv__` — so for a raw left operand they
compute `b - r` and `b / r` with the roles swapped.  Concretely `5 - Value(3)`
evaluates to `-2` (the specified derivation `add(5, negate(b))` gives `2`),
and `2 / Value(4)` evaluates to `2` (the specification gives `0.5`). -/
theorem c5_rsub_rdiv_flipped :
    bSubPair.2.data bSubPair.1 = 3 ∧
    rsubPair.2.data rsubPair.1 = -2 ∧
    rsubPair.2.data rsubPair.1 ≠ 5 - 3 ∧
    bDivPair.2.data bDivPair.1 = 4 ∧
    rdivPair.2.data rdivPair.1 = 2 ∧
    rdivPair.2.data rdivPair.1 ≠ 2 / 4 := by
  refine ⟨?_, ?_, ?_, ?_, ?_, ?_⟩ <;>
    norm_num [bSubPair, rsubPair, bDivPair, rdivPair, vrsub, vrdiv, vaddArg, vmulArg,
      mkValue, vadd, vmul, Graph.push, Graph.data, Graph.opAt, Graph.node]

theorem data_push_old (g : Graph) (nd : Value) (i : Nat) (h : i < g.nodes.length) :
    (g.push nd).2.data i = g.data i := by
  unfold Graph.data
  rw [node_push_old g nd i h]

theorem vmulArg_spec (g : Graph) (i : Nat) (a : PyArg) (hi : i < g.nodes.length)
    (ha : ∀ j, a = PyArg.node j → j < g.nodes.length) :
    Extends g (vmulArg g i a).2 ∧
    (vmulArg g i a).1 < (vmulArg g i a).2.nodes.length ∧
    (vmulArg g i a).2.data (vmulArg g i a).1 = g.data i * argData g a := by
  cases a with
  | node j =>
    refine ⟨extends_push _ _, ?_, data_push_new g _⟩
    show g.nodes.length < (g.push _).2.nodes.length
    rw [length_push]
    exact Nat.lt_succ_self _
  | num q =>
    refine ⟨extends_trans (extends_push _ _) (extends_push _ _), ?_, ?_⟩
    · show (mkValue g q).2.nodes.length < ((mkValue g q).2.push _).2.nodes.length
      rw [length_push]
      exact Nat.lt_succ_self _
    · show ((mkValue g q).2.push _).2.data (mkValue g q).2.nodes.length = g.data i * q
      rw [data_push_new]
      show (mkValue g q).2.data i * (mkValue g q).2.data (mkValue g q).1 = g.data i * q
      rw [show (mkValue g q).1 = g.nodes.length from rfl]
      show (g.push ⟨q, 0, Op.leaf⟩).2.data i *
        (g.push ⟨q, 0, Op.leaf⟩).2.data g.nodes.length = g.data i * q
      rw [data_push_old g _ i hi, data_push_new]

/-- The accumulation loop of `Neuron.__call__`: the resulting activation node
carries `acc.data` plus the sum of the products over the zipped pairs, and the
graph only grows. -/
theorem sumWX_spec (g0 : Graph) :
    ∀ (l : List (Nat × PyArg)) (g : Graph) (acc : Nat),
      Extends g0 g → acc < g.nodes.length →
      (∀ p ∈ l, p.1 < g0.nodes.length ∧ ∀ j, p.2 = PyArg.node j → j < g0.nodes.length) →
      Extends g (sumWX g l acc).2 ∧
      (sumWX g l acc).1 < (sumWX g l acc).2.nodes.length ∧
      (sumWX g l acc).2.data (sumWX g l acc).1 =
        g.data acc + (l.map fun p => g0.data p.1 * argData g0 p.2).sum := by
  intro l
  induction l with
  | nil =>
    intro g acc _ hacc _
    exact ⟨extends_refl g, hacc, by simp [sumWX]⟩
  | cons wx rest ih =>
    intro g acc hext hacc hl
    obtain ⟨hw1, hx1⟩ := hl wx (List.mem_cons_self _ _)
    have hwi : wx.1 < g.nodes.length := Nat.lt_of_lt_of_le hw1 hext.1
    have hxj : ∀ j, wx.2 = PyArg.node j → j < g.nodes.length :=
      fun j hj => Nat.lt_of_lt_of_le (hx1 j hj) hext.1
    obtain ⟨he1, hlt1, hd1⟩ := vmulArg_spec g wx.1 wx.2 hwi hxj
    have hacc1 : acc < (vmulArg g wx.1 wx.2).2.nodes.length :=
      Nat.lt_of_lt_of_le hacc he1.1
    have he2 : Extends (vmulArg g wx.1 wx.2).2
        (vadd (vmulArg g wx.1 wx.2).2 acc (vmulArg g wx.1 wx.2).1).2 := extends_push _ _
    have hslt : (vadd (vmulArg g wx.1 wx.2).2 acc (vmulArg g wx.1 wx.2).1).1 <
        (vadd (vmulArg g wx.1 wx.2).2 acc (vmulArg g wx.1 wx.2).1).2.nodes.length := by
      show (vmulArg g wx.1 wx.2).2.nodes.length < _
      rw [show (vadd (vmulArg g wx.1 wx.2).2 acc (vmulArg g wx.1 wx.2).1).2.nodes.length =
        (vmulArg g wx.1 wx.2).2.nodes.length + 1 from length_push _ _]
      exact Nat.lt_succ_self _
    have hds : (vadd (vmulArg g wx.1 wx.2).2 acc (vmulArg g wx.1 wx.2).1).2.data
        (vadd (vmulArg g wx.1 wx.2).2 acc (vmulArg g wx.1 wx.2).1).1 =
        (vmulArg g wx.1 wx.2).2.data acc +
          (vmulArg g wx.1 wx.2).2.data (vmulArg g wx.1 wx.2).1 := data_push_new _ _
    have hunfold : sumWX g (wx :: rest) acc =
        sumWX (vadd (vmulArg g wx.1 wx.2).2 acc (vmulArg g wx.1 wx.2).1).2 rest
          (vadd (vmulArg g wx.1 wx.2).2 acc (vmulArg g wx.1 wx.2).1).1 := rfl
    rw [hunfold]
    obtain ⟨he3, hlt3, hd3⟩ :=
      ih (vadd (vmulArg g wx.1 wx.2).2 acc (vmulArg g wx.1 wx.2).1).2
        (vadd (vmulArg g wx.1 wx.2).2 acc (vmulArg g wx.1 wx.2).1).1
        (extends_trans (extends_trans hext he1) he2) hslt
        (fun p hp => hl p (List.mem_cons_of_mem _ hp))
    refine ⟨extends_trans (extends_trans he1 he2) he3, hlt3, ?_⟩
    rw [hd3, hds, he1.data hacc, hd1, hext.data hw1, hext.argData wx.2 hx1]
    rw [List.map_cons, List.sum_cons]
    ring

/-- `Neuron.__call__`: the returned node's value is
`tanh(b + sum of w_i * x_i over the zipped prefix)`; the call always returns
(there is no length check), and the graph only grows. -/
theorem neuronCall_spec (E : ℚ → ℚ) (g : Graph) (nr : NeuronM) (x : List PyArg)
    (hb : nr.b < g.nodes.length) (hw : ∀ w ∈ nr.w, w < g.nodes.length)
    (hx : ∀ a ∈ x, ∀ j, a = PyArg.node j → j < g.nodes.length) :
    Extends g (neuronCall E g nr x).2 ∧
    (neuronCall E g nr x).1 < (neuronCall E g nr x).2.nodes.length ∧
    (neuronCall E g nr x).2.data (neuronCall E g nr x).1 =
      tanhVal E (g.data nr.b +
        ((nr.w.zip x).map fun p => g.data p.1 * argData g p.2).sum) := by
  have hl : ∀ p ∈ nr.w.zip x,
      p.1 < g.nodes.length ∧ ∀ j, p.2 = PyArg.node j → j < g.nodes.length := by
    intro p hp
    obtain ⟨a, b⟩ := p
    obtain ⟨h1, h2⟩ := List.of_mem_zip hp
    exact ⟨hw a h1, fun j hj => hx b h2 j hj⟩
  obtain ⟨he1, hlt1, hd1⟩ := sumWX_spec g (nr.w.zip x) g nr.b (extends_refl g) hb hl
  refine ⟨extends_trans he1 (extends_push _ _), ?_, ?_⟩
  · show (sumWX g (nr.w.zip x) nr.b).2.nodes.length < _
    rw [show (neuronCall E g nr x).2.nodes.length =
      (sumWX g (nr.w.zip x) nr.b).2.nodes.length + 1 from length_push _ _]
    exact Nat.lt_succ_self _
  · show ((sumWX g (nr.w.zip x) nr.b).2.push _).2.data
      (sumWX g (nr.w.zip x) nr.b).2.nodes.length = _
    rw [data_push_new, hd1]

/-!  ## Claims C10 and C4 -/

/-- Decidable phrasing of "a node-valued input refers to an existing node". -/
def argOk (len : Nat) : PyArg → Prop
  | PyArg.node j => j < len
  | PyArg.num _ => True

instance (len : Nat) (a : PyArg) : Decidable (argOk len a) := by
  cases a <;> simp only [argOk] <;> infer_instance

theorem argOk_node {len : Nat} {a : PyArg} (h : argOk len a) :
    ∀ j, a = PyArg.node j → j < len := by
  intro j hj
  subst hj
  exact h

/-- **C10**: `Neuron.__call__` performs no length check: for every input
length `m` it returns normally with value
`tanh(bias + Σ over the zipped prefix of length min(n, m) of wᵢ·xᵢ)` — when
`m < n` the surplus weights contribute nothing, and when `m > n` the surplus
inputs are silently ignored (`zip` truncation in the source). -/
theorem c10_neuron_truncates (E : ℚ → ℚ) (g : Graph) (nr : NeuronM) (x : List PyArg)
    (hb : nr.b < g.nodes.length) (hw : ∀ w ∈ nr.w, w < g.nodes.length)
    (hx : ∀ a ∈ x, ∀ j, a = PyArg.node j → j < g.nodes.length) :
    (nr.w.zip x).length = min nr.w.length x.length ∧
    (neuronCall E g nr x).2.data (neuronCall E g nr x).1 =
      tanhVal E (g.data nr.b +
        ((nr.w.zip x).map fun p => g.data p.1 * argData g p.2).sum) :=
  ⟨List.length_zip _ _, (neuronCall_spec E g nr x hb hw hx).2.2⟩

/-- A `Neuron(2)` (weights `2`, `3`, bias `5`) applied to a 3-element input. -/
def gC10 : Graph := ⟨[⟨2, 0, Op.leaf⟩, ⟨3, 0, Op.leaf⟩, ⟨5, 0, Op.leaf⟩]⟩

def nrC10 : NeuronM := ⟨[0, 1], 2⟩

def xC10 : List PyArg := [PyArg.num 1, PyArg.num 1, PyArg.num 1]

theorem c10_neuron_truncates_witness :
    (nrC10.b < gC10.nodes.length ∧ (∀ w ∈ nrC10.w, w < gC10.nodes.length) ∧
      (∀ a ∈ xC10, argOk gC10.nodes.length a)) ∧
    ((nrC10.w.zip xC10).length = min nrC10.w.length xC10.length ∧
      (neuronCall id gC10 nrC10 xC10).2.data (neuronCall id gC10 nrC10 xC10).1 =
        tanhVal id (gC10.data nrC10.b +
          ((nrC10.w.zip xC10).map fun p => gC10.data p.1 * argData gC10 p.2).sum)) :=
  ⟨⟨by decide, by decide, by decide⟩,
   c10_neuron_truncates id gC10 nrC10 xC10 (by decide) (by decide)
     (fun a ha => argOk_node
       ((by decide : ∀ a ∈ xC10, argOk gC10.nodes.length a) a ha))⟩

/-- A `Neuron(3)` — weights `1`, `2`, `3` and bias `4` — applied to the
2-element input `[5, 6]`. -/
def gC4 : Graph := ⟨[⟨1, 0, Op.leaf⟩, ⟨2, 0, Op.leaf⟩, ⟨3, 0, Op.leaf⟩, ⟨4, 0, Op.leaf⟩]⟩

def nrC4 : NeuronM := ⟨[0, 1, 2], 3⟩

def xC4 : List PyArg := [PyArg.num 5, PyArg.num 6]

/-- **C4** (counterexample): calling a `Neuron(3)` with a 2-element input does
not fail — no `DimensionMismatch` (or any length check) exists in the source;
the call returns normally with value `tanh(4 + 1·5 + 2·6) = tanh(21)`, here
`(42 - 1)/(42 + 1) = 41/43` under the modelled exponential `id`. -/
theorem c4_dimension_mismatch_cex :
    (neuronCall id gC4 nrC4 xC4).2.data (neuronCall id gC4 nrC4 xC4).1 = 41 / 43 := by
  norm_num [neuronCall, sumWX, vmulArg, vadd, vmul, mkValue, vtanh, tanhVal, Graph.push,
    Graph.data, Graph.node, gC4, nrC4, xC4, List.zip, Graph.opAt]

/-- **C4** (as amended): a `Neuron` invoked with an input sequence whose length
differs from its declared width does not fail: it returns normally, with value
`tanh(bias + Σ over the zipped (truncated) prefix of wᵢ·xᵢ)`. -/
theorem c4_dimension_mismatch_amended (E : ℚ → ℚ) (g : Graph) (nr : NeuronM)
    (x : List PyArg) (_hlen : x.length ≠ nr.w.length) (hb : nr.b < g.nodes.length)
    (hw : ∀ w ∈ nr.w, w < g.nodes.length)
    (hx : ∀ a ∈ x, ∀ j, a = PyArg.node j → j < g.nodes.length) :
    (neuronCall E g nr x).2.data (neuronCall E g nr x).1 =
      tanhVal E (g.data nr.b +
        ((nr.w.zip x).map fun p => g.data p.1 * argData g p.2).sum) :=
  (neuronCall_spec E g nr x hb hw hx).2.2

theorem c4_dimension_mismatch_amended_witness :
    (xC4.length ≠ nrC4.w.length ∧ nrC4.b < gC4.nodes.length) ∧
    (neuronCall id gC4 nrC4 xC4).2.data (neuronCall id gC4 nrC4 xC4).1 =
      tanhVal id (gC4.data nrC4.b +
        ((nrC4.w.zip xC4).map fun p => gC4.data p.1 * argData gC4 p.2).sum) :=
  ⟨⟨by decide, by decide⟩,
   c4_dimension_mismatch_amended id gC4 nrC4 xC4 (by decide) (by decide) (by decide)
     (fun a ha => argOk_node
       ((by decide : ∀ a ∈ xC4, argOk gC4.nodes.length a) a ha))⟩

/-!  ## Claim C9 -/

theorem setGrad_oob (g : Graph) (j : Nat) (q : ℚ) (h : g.nodes.length ≤ j) :
    setGrad g j q = g := by
  unfold setGrad
  rw [List.set_eq_of_length_le h]

theorem zeroGrad_grad : ∀ (ps : List Nat) (g : Graph) (i : Nat),
    (zeroGrad g ps).grad i = if i ∈ ps ∧ i < g.nodes.length then 0 else g.grad i := by
  intro ps
  induction ps with
  | nil => intro g i; simp [zeroGrad]
  | cons p rest ih =>
    intro g i
    have hstep : zeroGrad g (p :: rest) = zeroGrad (setGrad g p 0) rest := rfl
    rw [hstep, ih (setGrad g p 0) i, length_setGrad]
    rcases Nat.lt_or_ge p g.nodes.length with hp | hp
    · by_cases hmem : i ∈ rest ∧ i < g.nodes.length
      · rw [if_pos hmem, if_pos ⟨List.mem_cons_of_mem p hmem.1, hmem.2⟩]
      · rw [if_neg hmem, grad_setGrad g p 0 hp i]
        by_cases hip : i = p
        · subst hip
          by_cases hilen : i < g.nodes.length
          · rw [if_pos rfl, if_pos ⟨List.mem_cons_self i rest, hilen⟩]
          · exact absurd hp hilen
        · rw [if_neg hip]
          by_cases hcond : i ∈ p :: rest ∧ i < g.nodes.length
          · rcases List.mem_cons.1 hcond.1 with h | h
            · exact absurd h hip
            · exact absurd ⟨h, hcond.2⟩ hmem
          · rw [if_neg hcond]
    · rw [setGrad_oob g p 0 hp]
      by_cases hmem : i ∈ rest ∧ i < g.nodes.length
      · rw [if_pos hmem, if_pos ⟨List.mem_cons_of_mem p hmem.1, hmem.2⟩]
      · rw [if_neg hmem]
        by_cases hcond : i ∈ p :: rest ∧ i < g.nodes.length
        · rcases List.mem_cons.1 hcond.1 with h | h
          · subst h
            exact absurd hcond.2 (Nat.not_lt_of_ge hp)
          · exact absurd ⟨h, hcond.2⟩ hmem
        · rw [if_neg hcond]

theorem sameShape_zeroGrad : ∀ (ps : List Nat) (g : Graph), SameShape g (zeroGrad g ps) := by
  intro ps
  induction ps with
  | nil => intro g; exact sameShape_refl g
  | cons p rest ih =>
    intro g
    exact sameShape_trans (sameShape_setGrad g p 0) (ih (setGrad g p 0))

/-- **C9**: after `zero_grad()` every node in the parameter list carries
gradient exactly `0`, regardless of previously accumulated values; the
gradient of every node not in the list is unchanged, and no node's `data` or
operation record is touched. -/
theorem c9_zero_grad (g : Graph) (ps : List Nat) (hps : ∀ p ∈ ps, p < g.nodes.length) :
    (∀ i ∈ ps, (zeroGrad g ps).grad i = 0) ∧
    (∀ i, i ∉ ps → (zeroGrad g ps).grad i = g.grad i) ∧
    (∀ i, (zeroGrad g ps).data i = g.data i) ∧
    (∀ i, (zeroGrad g ps).opAt i = g.opAt i) := by
  refine ⟨?_, ?_, fun i => ((sameShape_zeroGrad ps g).2.1 i).symm,
    fun i => ((sameShape_zeroGrad ps g).2.2 i).symm⟩
  · intro i hi
    rw [zeroGrad_grad ps g i, if_pos ⟨hi, hps i hi⟩]
  · intro i hi
    rw [zeroGrad_grad ps g i, if_neg (fun hc => hi hc.1)]

/-- Three parameter leaves holding stale gradients `5`, `7`, `9`; `zero_grad`
is run over the first and third. -/
def gC9 : Graph := ⟨[⟨1, 5, Op.leaf⟩, ⟨2, 7, Op.leaf⟩, ⟨3, 9, Op.leaf⟩]⟩

theorem c9_zero_grad_witness :
    (∀ p ∈ [0, 2], p < gC9.nodes.length) ∧
    ((∀ i ∈ [0, 2], (zeroGrad gC9 [0, 2]).grad i = 0) ∧
      (∀ i, i ∉ [0, 2] → (zeroGrad gC9 [0, 2]).grad i = gC9.grad i)) :=
  have h := c9_zero_grad gC9 [0, 2] (by decide)
  ⟨by decide, h.1, h.2.1⟩

/-!  ## Claim C7 -/

theorem mkWeights_len (rnd : Nat → ℚ) : ∀ (n : Nat) (g : Graph) (k : Nat),
    ((mkWeights rnd g k n).1).length = n := by
  intro n
  induction n with
  | zero => intro g k; rfl
  | succ n ih =>
    intro g k
    simp only [mkWeights, List.length_cons, ih]

theorem mkNeuron_w_len (rnd : Nat → ℚ) (g : Graph) (k nin : Nat) :
    ((mkNeuron rnd g k nin).1).w.length = nin :=
  mkWeights_len rnd nin g k

theorem mkLayer_shape (rnd : Nat → ℚ) : ∀ (nout : Nat) (g : Graph) (k nin : Nat),
    ((mkLayer rnd g k nin nout).1).length = nout ∧
    ∀ nr ∈ (mkLayer rnd g k nin nout).1, nr.w.length = nin := by
  intro nout
  induction nout with
  | zero =>
    intro g k nin
    exact ⟨rfl, fun nr h => absurd h (List.not_mem_nil nr)⟩
  | succ nout ih =>
    intro g k nin
    obtain ⟨hlen, hall⟩ :=
      ih (mkNeuron rnd g k nin).2.1 (mkNeuron rnd g k nin).2.2 nin
    constructor
    · simp only [mkLayer, List.length_cons, hlen]
    · intro nr hnr
      simp only [mkLayer] at hnr
      rcases List.mem_cons.1 hnr with h | h
      · rw [h]
        exact mkNeuron_w_len rnd g k nin
      · exact hall nr h

theorem neuronParams_len (nr : NeuronM) : (neuronParams nr).length = nr.w.length + 1 := by
  simp [neuronParams]

theorem layerParams_len (L : List NeuronM) (nin : Nat) (h : ∀ nr ∈ L, nr.w.length = nin) :
    (layerParams L).length = L.length * (nin + 1) := by
  induction L with
  | nil => simp [layerParams]
  | cons nr rest ih =>
    have h1 : (layerParams (nr :: rest)).length =
        (neuronParams nr).length + (layerParams rest).length := by
      simp [layerParams, List.flatMap_cons]
    rw [h1, neuronParams_len, h nr (List.mem_cons_self _ _),
      ih (fun nr' h' => h nr' (List.mem_cons_of_mem _ h')), List.length_cons]
    ring

theorem mkMLP_layers_len (rnd : Nat → ℚ) : ∀ (nouts : List Nat) (g : Graph) (k nin : Nat),
    ((mkMLP rnd g k nin nouts).1).length = nouts.length := by
  intro nouts
  induction nouts with
  | nil => intro g k nin; rfl
  | cons m rest ih =>
    intro g k nin
    simp only [mkMLP, List.length_cons, ih]

theorem mkMLP_param_count (rnd : Nat → ℚ) : ∀ (nouts : List Nat) (g : Graph) (k nin : Nat),
    (mlpParams (mkMLP rnd g k nin nouts).1).length = mlpParamCount nin nouts := by
  intro nouts
  induction nouts with
  | nil => intro g k nin; rfl
  | cons m rest ih =>
    intro g k nin
    obtain ⟨hL, hall⟩ := mkLayer_shape rnd m g k nin
    have h1 : mlpParams (mkMLP rnd g k nin (m :: rest)).1 =
        layerParams (mkLayer rnd g k nin m).1 ++
          mlpParams (mkMLP rnd (mkLayer rnd g k nin m).2.1
            (mkLayer rnd g k nin m).2.2 m rest).1 := by
      simp [mkMLP, mlpParams, List.flatMap_cons]
    rw [h1, List.length_append, layerParams_len _ nin hall, hL, ih,
      mlpParamCount]

/-- **C7**: `parameters()` is, at every level, exactly the concatenation in
stable deterministic order — layer order, then neuron order, then all weights
followed by the bias (the functions are pure, so repeated calls agree
positionally); for a model built over widths `nin, n₁, …, nₖ` the list length
is `(nin+1)·n₁ + (n₁+1)·n₂ + …` (`mlpParamCount`). -/
theorem c7_parameters_order (rnd : Nat → ℚ) (g : Graph) (k nin : Nat) (nouts : List Nat) :
    (∀ nr : NeuronM, neuronParams nr = nr.w ++ [nr.b]) ∧
    (∀ L : List NeuronM, layerParams L = L.flatMap fun nr => nr.w ++ [nr.b]) ∧
    (∀ ls : List (List NeuronM),
      mlpParams ls = ls.flatMap fun L => L.flatMap fun nr => nr.w ++ [nr.b]) ∧
    ((mkMLP rnd g k nin nouts).1).length = nouts.length ∧
    (mlpParams (mkMLP rnd g k nin nouts).1).length = mlpParamCount nin nouts :=
  ⟨fun _ => rfl, fun _ => rfl, fun _ => rfl,
   mkMLP_layers_len rnd nouts g k nin, mkMLP_param_count rnd nouts g k nin⟩

/-!  ## Claim C8 -/

theorem neuronOuts_len (E : ℚ → ℚ) : ∀ (L : List NeuronM) (g : Graph) (x : List PyArg),
    ((neuronOuts E g L x).1).length = L.length := by
  intro L
  induction L with
  | nil => intro g x; rfl
  | cons nr rest ih =>
    intro g x
    simp only [neuronOuts, List.length_cons, ih]

theorem layerCall_single (E : ℚ → ℚ) (g : Graph) (L : List NeuronM) (x : List PyArg)
    (h : L.length = 1) : ∃ o, (layerCall E g L x).1 = LayerOut.single o := by
  obtain ⟨o, ho⟩ := List.length_eq_one.1 ((neuronOuts_len E L g x).trans h)
  exact ⟨o, by simp only [layerCall, ho]⟩

theorem layerCall_seq (E : ℚ → ℚ) (g : Graph) (L : List NeuronM) (x : List PyArg)
    (h : L.length ≠ 1) :
    ∃ os, (layerCall E g L x).1 = LayerOut.seq os ∧ os.length = L.length := by
  have hlen := neuronOuts_len E L g x
  rcases ho : (neuronOuts E g L x).1 with _ | ⟨a, t⟩
  · exact ⟨[], by simp only [layerCall, ho], by rw [← hlen, ho]⟩
  · rcases t with _ | ⟨b, t2⟩
    · rw [ho] at hlen
      exact absurd hlen.symm h
    · exact ⟨a :: b :: t2, by simp only [layerCall, ho], by rw [← hlen, ho]⟩

theorem mlpGo_step (E : ℚ → ℚ) (L : List NeuronM) (rest : List (List NeuronM))
    (x : List PyArg) (g : Graph) :
    mlpGo E (L :: rest) (LVal.args x) g =
      mlpGo E rest
        (match (layerCall E g L x).1 with
         | LayerOut.single o => LVal.single o
         | LayerOut.seq os => LVal.args (os.map PyArg.node)) (layerCall E g L x).2 := rfl

/-- **C8** (as amended): for a model none of whose layers other than the last
has exactly one neuron, the forward pass returns a single bare node when the
final layer has one neuron, and a sequence of exactly `k` output nodes (in
neuron order) when it has `k ≠ 1`; a single-neuron layer anywhere earlier
makes the forward pass fail instead, since the bare node it returns is not a
sequence (`zip` over a `Value` raises `TypeError`). -/
theorem c8_shape (E : ℚ → ℚ) : ∀ (layers : List (List NeuronM)) (g : Graph)
    (x : List PyArg) (hne : layers ≠ []),
    (∀ L ∈ layers.dropLast, L.length ≠ 1) →
    ((layers.getLast hne).length = 1 →
      ∃ (o : Nat) (g' : Graph), mlpCall E g layers x = some (LVal.single o, g')) ∧
    ((layers.getLast hne).length ≠ 1 →
      ∃ (outs : List Nat) (g' : Graph),
        mlpCall E g layers x = some (LVal.args (outs.map PyArg.node), g') ∧
        outs.length = (layers.getLast hne).length) := by
  intro layers
  induction layers with
  | nil => intro g x hne; exact absurd rfl hne
  | cons L rest ih =>
    intro g x hne hmid
    cases rest with
    | nil =>
      constructor
      · intro hone
        rw [List.getLast_singleton] at hone
        obtain ⟨o, ho⟩ := layerCall_single E g L x hone
        refine ⟨o, (layerCall E g L x).2, ?_⟩
        rw [mlpCall, mlpGo_step, ho]
        rfl
      · intro hk
        rw [List.getLast_singleton] at hk
        obtain ⟨os, ho, holen⟩ := layerCall_seq E g L x hk
        refine ⟨os, (layerCall E g L x).2, ?_, ?_⟩
        · rw [mlpCall, mlpGo_step, ho]
          rfl
        · rw [holen, List.getLast_singleton]
    | cons L2 rest2 =>
      have hL : L.length ≠ 1 := by
        refine hmid L ?_
        rw [List.dropLast_cons₂]
        exact List.mem_cons_self _ _
      have hmid2 : ∀ L' ∈ (L2 :: rest2).dropLast, L'.length ≠ 1 := by
        intro L' hL'
        refine hmid L' ?_
        rw [List.dropLast_cons₂]
        exact List.mem_cons_of_mem _ hL'
      obtain ⟨os, ho, _⟩ := layerCall_seq E g L x hL
      have hglast : (L :: L2 :: rest2).getLast (by simp) = (L2 :: rest2).getLast (by simp) :=
        List.getLast_cons (by simp)
      have hstep : mlpCall E g (L :: L2 :: rest2) x =
          mlpCall E (layerCall E g L x).2 (L2 :: rest2) (os.map PyArg.node) := by
        rw [mlpCall, mlpGo_step, ho]
        rfl
      obtain ⟨h1, h2⟩ := ih (layerCall E g L x).2 (os.map PyArg.node) (by simp) hmid2
      constructor
      · intro hone
        rw [hglast] at hone
        obtain ⟨o, g', hres⟩ := h1 hone
        exact ⟨o, g', by rw [hstep, hres]⟩
      · intro hk
        rw [hglast] at hk
        obtain ⟨outs, g', hres, hlen⟩ := h2 hk
        refine ⟨outs, g', by rw [hstep, hres], ?_⟩
        rw [hlen, hglast]

/-- Three bias leaves used by the concrete two-layer models below (all neurons
have width 0, so the input plays no role in the shapes). -/
def gC8 : Graph := ⟨[⟨1, 0, Op.leaf⟩, ⟨2, 0, Op.leaf⟩, ⟨3, 0, Op.leaf⟩]⟩

/-- A model shaped like `MLP(0, [1, 2])`: a single-neuron layer followed by a
two-neuron layer. -/
def layersC8 : List (List NeuronM) := [[⟨[], 0⟩], [⟨[], 1⟩, ⟨[], 2⟩]]

/-- **C8** (counterexample): the claim promises that a model whose final layer
has `k > 1` neurons returns a `k`-element sequence, for every model; but for a
model with a single-neuron layer before the final two-neuron layer, the first
layer returns a bare node, which the second layer cannot iterate
(`TypeError` in the source, `none` here) — no 2-element sequence is returned. -/
theorem c8_shape_cex : mlpCall id gC8 layersC8 [] = none := rfl

/-- A model shaped like `MLP(0, [2, 1])`: a two-neuron layer followed by a
single-neuron final layer. -/
def layersC8W : List (List NeuronM) := [[⟨[], 0⟩, ⟨[], 1⟩], [⟨[], 2⟩]]

theorem c8_shape_witness :
    ((layersC8W ≠ ([] : List (List NeuronM))) ∧
      (∀ L ∈ layersC8W.dropLast, L.length ≠ 1) ∧
      (layersC8W.getLast (by decide)).length = 1) ∧
    (∃ (o : Nat) (g' : Graph), mlpCall id gC8 layersC8W [] = some (LVal.single o, g')) :=
  ⟨⟨by decide, by decide, by decide⟩,
   (c8_shape id layersC8W gC8 [] (by decide) (by decide)).1 (by decide)⟩
